import Mathlib

/-!
Verification of the fuzzy-matching / clustering pipeline of the repository
(`src/utils/UtilsMatching.py`, `src/utils/UtilsDQAnalysis.py`, driven by
`src/Scripts/SuezMain.py`).

The pandas dataframes are embedded as lists of records; a nullable label
column is `Option String` (`none` = NaN).  Similarity scores are rationals
(the textdistance algorithms are external library code; they enter the
embedding as parameters, each a function `String → String → ℚ`).  Python
exceptions are `Except String`.
-/

namespace Og

/-- A similarity algorithm: `normalized_similarity` of two strings. -/
abbrev SimFun := String → String → ℚ

/-- One input row (`main_df`): the stable `_unicity_key` and the nullable
`label` column. -/
structure Record where
  key : ℕ
  label : Option String
deriving DecidableEq, Repr

/-- A row of the deduplicated working dataframe of
`create_matched_dataframe` (label known non-null). -/
structure WRow where
  key : ℕ
  label : String
deriving DecidableEq, Repr

/-- `itertools.combinations(l, 2)` in list order. -/
def pairCombinations : List α → List (α × α)
  | [] => []
  | x :: xs => (xs.map fun y => (x, y)) ++ pairCombinations xs

/-- `pandas.Series.unique`: deduplicate keeping the first occurrence
(later duplicates of the head are filtered out of the recursive result). -/
def dedupKeepFirst [DecidableEq α] : List α → List α
  | [] => []
  | x :: xs => x :: (dedupKeepFirst xs).filter fun y => y ≠ x

/-- `DataFrame.drop_duplicates(subset=[k])`: keep the first row for each
value of the projection `f`. -/
def dedupByKey (f : α → β) [DecidableEq β] : List α → List α
  | [] => []
  | x :: xs => x :: (dedupByKey f xs).filter fun y => f y ≠ f x

/-- Python `max` on a list of rationals (the `[]` case is unreachable in
the embedded code: the caller raises first). -/
def pyMax : List ℚ → ℚ
  | [] => 0
  | x :: xs => xs.foldl max x

/-- The maximum normalized similarity of two labels across the selected
algorithm functions (`max([...normalized_similarity...])`). -/
def simScore (fns : List SimFun) (a b : String) : ℚ :=
  pyMax (fns.map fun f => f a b)

/-- The list `matching_functions` looked up in `algorithm_mapping`, with
the `None` entries removed (after the validation check). -/
def fnsOf (mapping : α → Option SimFun) (algos : List α) : List SimFun :=
  (algos.map mapping).reduceOption

/-- A row of the `similarity_matrix` dataframe: the `Combinations` pair and
its `Final_score`. -/
structure ScoredPair where
  label1 : String
  label2 : String
  score : ℚ
deriving DecidableEq, Repr

def unknownAlgoMsg : String :=
  "One or more of the specified algorithms are not known or not implemented yet!"

def unpackErrMsg : String := "not enough values to unpack (expected 2, got 0)"

def emptyMaxMsg : String := "max() arg is an empty sequence"

def noMatchMsg : String := "No match was found"

/-- `compute_similarity_matrix` (src/utils/UtilsMatching.py, lines 27-98).
`column` is the label column of the input dataframe; `mapping` is the
`algorithm_mapping` dict lookup (`None` for an unknown identifier).
Error order follows the code: the `None`-membership check, then the
unpacking of `zip(*label_pairs)` (which raises when there are fewer than
two distinct labels), then `max([])` on an empty algorithm list (raised at
the first pair, before any similarity evaluation). -/
def computeSimilarityMatrix (mapping : α → Option SimFun) (algos : List α)
    (threshold : ℚ) (column : List String) : Except String (List ScoredPair) :=
  let fnOpts := algos.map mapping
  if fnOpts.any Option.isNone then
    .error unknownAlgoMsg
  else
    let fns := fnOpts.reduceOption
    let uniqueLabels := dedupKeepFirst column
    let labelPairs := pairCombinations uniqueLabels
    if labelPairs.isEmpty then
      .error unpackErrMsg
    else if fns.isEmpty then
      .error emptyMaxMsg
    else
      let scored := labelPairs.map fun p => ScoredPair.mk p.1 p.2 (simScore fns p.1 p.2)
      .ok (scored.filter fun sp => threshold ≤ sp.score)

/-- The cluster identifiers produced by `id_generator`.  The generator
draws random 6-character strings; the embedding models them as fresh
identifiers that are distinct for distinct draws (one per qualifying pair,
one per unmatched row), which is the uniqueness the code relies on. -/
inductive RandomId where
  | pairId : ℕ → RandomId
  | rowId : ℕ → RandomId
deriving DecidableEq, Repr

/-- A row of the `result_df` returned by `create_matched_dataframe`. -/
structure CRow where
  key : ℕ
  label : String
  cid : RandomId
deriving DecidableEq, Repr

/-- `working_df = df.dropna(subset=["label"]).drop_duplicates(subset=["label"])`. -/
def workingOf (df : List Record) : List WRow :=
  dedupByKey WRow.label (df.filterMap fun r => r.label.map fun l => WRow.mk r.key l)

/-- The label column of the working dataframe. -/
def columnOf (df : List Record) : List String :=
  (workingOf df).map WRow.label

/-- The rows of `result_df` for a working dataframe and a qualifying-pair
list (`matched_labels = list(similarity_df.Combinations)`): for each pair
`i` (the `for i in range(len(matched_labels))` loop) the rows of
`working_df` whose label is in the pair are copied and tagged with that
pair's fresh id; the rows matching no pair keep their own fresh id (the
`fillna("")`/`id_generator` step).  Unmatched rows come first, as in
`pd.concat([result_df, matched_df])`. -/
def clusteredRowsOf (working : List WRow) (qs : List ScoredPair) : List CRow :=
  let matchedLabels : List (List String) := qs.map fun sp => [sp.label1, sp.label2]
  ((working.filter fun w => w.label ∉ matchedLabels.flatten).map fun w =>
    CRow.mk w.key w.label (RandomId.rowId w.key)) ++
  (List.range matchedLabels.length).flatMap fun i =>
    (working.filter fun w => w.label ∈ matchedLabels.getD i []).map fun w =>
      CRow.mk w.key w.label (RandomId.pairId i)

/-- `create_matched_dataframe` (src/utils/UtilsMatching.py, lines 101-153). -/
def create_matched_dataframe (mapping : α → Option SimFun) (algos : List α)
    (threshold : ℚ) (df : List Record) : Except String (List CRow) :=
  match computeSimilarityMatrix mapping algos threshold (columnOf df) with
  | .error e => .error e
  | .ok qs =>
    if qs.isEmpty then
      .error noMatchMsg
    else
      .ok (clusteredRowsOf (workingOf df) qs)

/-- The set of `_unicity_key` values grouped under one `_cluster_id`
(the `groupby("_cluster_id")["_unicity_key"].apply(set)`). -/
def groupKeys (clustered : List CRow) (id : RandomId) : List ℕ :=
  (clustered.filter fun r => r.cid = id).map CRow.key

/-- The `_unicity_key_list` column: one key set per row of `clustered_df`
(the merge attaches each row's group). -/
def rowGroupsOf (clustered : List CRow) : List (List ℕ) :=
  clustered.map fun r => groupKeys clustered r.cid

/-- One merging step: the cells of the partition meeting the new group are
fused with it. -/
def insertGroup (g : List ℕ) (P : List (List ℕ)) : List (List ℕ) :=
  (g ++ (P.filter fun cell => cell.any fun x => x ∈ g).flatten) ::
    P.filter fun cell => ¬ cell.any fun x => x ∈ g

/-- Modelled: the code hands the key sets to `networkx` (external library)
as cliques (`add_edges_from(combinations(cluster_keys, 2))`) and takes
`connected_components`; per the spec this is "connected components
(union-find or equivalent traversal)".  The embedding merges overlapping
key sets; `sameCell_buildPartition_iff_conn` below proves the cells are
exactly the connected components of the clique graph. -/
def buildPartition (groups : List (List ℕ)) : List (List ℕ) :=
  groups.foldl (fun P g => insertGroup g P) []

/-- The connected components of the row groups of `clustered_df`. -/
def partitionOf (clustered : List CRow) : List (List ℕ) :=
  buildPartition (rowGroupsOf clustered)

/-- Two keys lie together in one of the groups (adjacency in the clique
graph the code builds). -/
def ConnStep (groups : List (List ℕ)) (a b : ℕ) : Prop :=
  ∃ g ∈ groups, a ∈ g ∧ b ∈ g

/-- Connectivity through chains of shared groups: the connected-component
relation of the graph whose cliques are the groups. -/
def Conn (groups : List (List ℕ)) : ℕ → ℕ → Prop :=
  Relation.TransGen (ConnStep groups)

/-- Two keys lie in one cell of a partition. -/
def SameCell (P : List (List ℕ)) (a b : ℕ) : Prop :=
  ∃ cell ∈ P, a ∈ cell ∧ b ∈ cell

/-- The cells are pairwise disjoint. -/
def PDisj (P : List (List ℕ)) : Prop :=
  P.Pairwise fun c d => ∀ x, x ∈ c → x ∈ d → False

/-- The invariant of the fold building the components: the cells relate
exactly the keys connected through the processed groups, disjointly. -/
def PartInv (G : List (List ℕ)) (P : List (List ℕ)) : Prop :=
  (∀ a b, SameCell P a b → Conn G a b) ∧
  (∀ a b, Conn G a b → SameCell P a b) ∧
  PDisj P

/-- The unordered qualifying-pair relation on labels. -/
def QualPair (qs : List ScoredPair) (l l' : String) : Prop :=
  ∃ sp ∈ qs, (sp.label1 = l ∧ sp.label2 = l') ∨ (sp.label1 = l' ∧ sp.label2 = l)

/-- One step of the cluster relation on labels: a qualifying pair, or one
shared working label. -/
def LabelRel (qs : List ScoredPair) (column : List String) (l l' : String) : Prop :=
  QualPair qs l l' ∨ (l = l' ∧ l ∈ column)

/-- The transitive closure of the qualifying-pair relation over the
working labels. -/
def LabelConn (qs : List ScoredPair) (column : List String) : String → String → Prop :=
  Relation.TransGen (LabelRel qs column)

/-- The index of the component containing a key (the
`key_to_cluster_id` dict, `cluster_i` rendered as the index `i`). -/
def cellIndex (P : List (List ℕ)) (k : ℕ) : Option ℕ :=
  match P with
  | [] => none
  | cell :: rest => if k ∈ cell then some 0 else (cellIndex rest k).map (· + 1)

/-- `key_to_cluster_id` applied to one key. -/
def keyToCluster (clustered : List CRow) (k : ℕ) : Option ℕ :=
  cellIndex (partitionOf clustered) k

/-- The `label_to_cluster_id` dict built by `dict(zip(labels, cids))`:
for duplicate labels the last row wins. -/
def labelToCluster (clustered : List CRow) (l : String) : Option ℕ :=
  (clustered.reverse.find? fun r => r.label = l).bind fun r =>
    keyToCluster clustered r.key

/-- An output row: the input row annotated with `_cluster_id` and
`_cluster_size` (both NaN when the label maps to nothing). -/
structure ORecord where
  key : ℕ
  label : Option String
  clusterId : Option ℕ
  clusterSize : Option ℕ
deriving DecidableEq, Repr

/-- `process_clusters` (src/utils/UtilsMatching.py, lines 156-197).
`main_df["_cluster_id"] = main_df["label"].map(label_to_cluster_id)` gives
NaN for a NaN label (and for a label absent from the dict);
`groupby("_cluster_id").transform("count")` counts the rows sharing the
id and leaves NaN rows NaN. -/
def process_clusters (clustered : List CRow) (main : List Record) : List ORecord :=
  let assigned : List (Record × Option ℕ) :=
    main.map fun r => (r, r.label.bind fun l => labelToCluster clustered l)
  assigned.map fun rc =>
    ORecord.mk rc.1.key rc.1.label rc.2
      (rc.2.map fun cv => (assigned.filter fun x => x.2 = some cv).length)

/-- The clustering steps of `DataProcessor.cluster_data`
(src/Scripts/SuezMain.py, lines 186-196): `create_matched_dataframe`
followed by `process_clusters` on the same dataframe. -/
def runPipeline (mapping : α → Option SimFun) (algos : List α)
    (threshold : ℚ) (df : List Record) : Except String (List ORecord) :=
  (create_matched_dataframe mapping algos threshold df).map fun clustered =>
    process_clusters clustered df

/-- The qualifying-pair list of a configuration (`[]` when the similarity
computation raised). -/
def qsOf (mapping : α → Option SimFun) (algos : List α)
    (threshold : ℚ) (df : List Record) : List ScoredPair :=
  match computeSimilarityMatrix mapping algos threshold (columnOf df) with
  | .ok qs => qs
  | .error _ => []

/-- The number of clusters of an annotated output
(`df_processed["_cluster_id"].nunique()`: distinct non-null ids). -/
def numClusters (out : List ORecord) : ℕ :=
  (out.filterMap ORecord.clusterId).toFinset.card

/-! ### Canonical labels (`src/utils/UtilsDQAnalysis.py`) -/

/-- `str.split()` word accumulator: splits a character list on whitespace
runs, dropping the empty pieces. -/
def wordsAux : List Char → List Char → List (List Char)
  | [], acc => if acc = [] then [] else [acc.reverse]
  | c :: cs, acc =>
    if c.isWhitespace then
      if acc = [] then wordsAux cs [] else acc.reverse :: wordsAux cs []
    else wordsAux cs (c :: acc)

/-- Python `str.split()`: split on whitespace runs, dropping empty pieces. -/
def pyWords (s : String) : List String :=
  (wordsAux s.data []).map String.mk

/-- Python `str.lower()` within the ASCII range. -/
def strLower (s : String) : String :=
  String.mk (s.data.map Char.toLower)

/-- `set.intersection(*word_sets)` up to membership: the words present in
every set (the code raises on an empty collection; the embedded
theorems only use nonempty clusters). -/
def intersectAll : List (List String) → List String
  | [] => []
  | s :: rest => rest.foldl (fun acc t => acc.filter fun w => w ∈ t) s

/-- `find_common_words_with_order` (src/utils/UtilsDQAnalysis.py,
lines 243-259). -/
def find_common_words_with_order (stringList : List String) : String :=
  let lowerStringList := stringList.map fun s => strLower s
  let wordSets := lowerStringList.map pyWords
  let commonWords := intersectAll wordSets
  let finalList := (pyWords (stringList.headD "")).filter fun w => strLower w ∈ commonWords
  String.intercalate " " finalList

/-- Modelled from the spec (section 4.4): the draft canonical label is the
word sequence of the first member, restricted in order to the words whose
lowercase form occurs in every member's lowercase word set, joined by
single spaces. -/
def canonicalDraftSpec (labels : List String) : String :=
  match labels with
  | [] => ""
  | l1 :: _ =>
    String.intercalate " "
      ((pyWords l1).filter fun w => labels.all fun l => strLower w ∈ pyWords (strLower l))

/-! ### Label cleansing (`src/utils/UtilsDQAnalysis.py`) -/

/-- `str.encode("ascii", "ignore")`: drop the non-ASCII characters. -/
def asciiEncodeIgnore (s : String) : String :=
  String.mk (s.data.filter fun c => c.toNat < 128)

/-- `normalize_text` (src/utils/UtilsDQAnalysis.py, lines 75-91).
`unicodedata.normalize("NFD", ·)` is external library code and is passed
in as the parameter `nfd`. -/
def normalize_text (nfd : String → String) (text : Option String) : String :=
  match text with
  | none => ""
  | some t => if t = "" then "" else asciiEncodeIgnore (nfd t)

/-- The characters matched by the regex class `\s` (and split on by
`str.split`) within the ASCII range. -/
def isPySpace (c : Char) : Bool :=
  c = ' ' || c = '\t' || c = '\n' || c = '\x0b' || c = '\x0c' || c = '\r' ||
    c = '\x1c' || c = '\x1d' || c = '\x1e' || c = '\x1f'

/-- The regex class `\w` in the ASCII range (for `\b` boundaries). -/
def isWordChar (c : Char) : Bool :=
  c.isAlphanum || c = '_'

/-- Whether a character before the match position breaks a `\b` before a
word character (start of string or a non-word character). -/
def boundaryBefore : Option Char → Bool
  | none => true
  | some p => ¬ isWordChar p

/-- Whether the position after a word character is a `\b` boundary
(end of string or a non-word character). -/
def boundaryAfter : List Char → Bool
  | [] => true
  | c :: _ => ¬ isWordChar c

/-- `re.sub(r"(?<=\d)[,.](?=\d)", "", label)`: delete a comma or dot
between two digits.  `prev` is the character preceding the scan position
in the original string. -/
def removeNumSep (prev : Option Char) : List Char → List Char
  | [] => []
  | c :: rest =>
    if (c = ',' || c = '.') &&
        (match prev with | some p => p.isDigit | none => false) &&
        (match rest with | r :: _ => r.isDigit | [] => false) then
      removeNumSep (some c) rest
    else
      c :: removeNumSep (some c) rest

/-- `re.sub(r"\b(\d+)\s+(\d+)\b", r"\1\2", label)`: fuse two whitespace
separated digit runs flanked by word boundaries; scanning resumes after
the match, as `re.sub` does.  The scan consumes at least one character
per step, so a fuel of `l.length` makes the fuel recursion total. -/
def joinNumRuns : ℕ → Option Char → List Char → List Char
  | 0, _, l => l
  | _, _, [] => []
  | fuel + 1, prev, c :: rest =>
    if c.isDigit && boundaryBefore prev then
      let d1t := rest.takeWhile Char.isDigit
      let rest1 := rest.dropWhile Char.isDigit
      let ws := rest1.takeWhile isPySpace
      let rest2 := rest1.dropWhile isPySpace
      let d2 := rest2.takeWhile Char.isDigit
      let rest3 := rest2.dropWhile Char.isDigit
      if ws ≠ [] && d2 ≠ [] && boundaryAfter rest3 then
        (c :: d1t) ++ d2 ++ joinNumRuns fuel (some (d2.getLastD c)) rest3
      else
        c :: joinNumRuns fuel (some c) rest
    else
      c :: joinNumRuns fuel (some c) rest

/-- `re.sub(r"(?<!K)\d+", "X", label)`: replace each maximal digit run not
preceded by `K` (after a `K` the first digit survives and the rest of its
run is replaced, as the regex engine does).  `inRun` records that the scan
is inside an already replaced digit run. -/
def digitsToX : Option Char → Bool → List Char → List Char
  | _, _, [] => []
  | prev, inRun, c :: rest =>
    if c.isDigit then
      if inRun then digitsToX (some c) true rest
      else if prev ≠ some 'K' then 'X' :: digitsToX (some c) true rest
      else c :: digitsToX (some c) false rest
    else c :: digitsToX (some c) false rest

/-- `re.sub(r"[^a-zA-Z0-9\s%]", " ", label)`. -/
def keepAlnumSpace (l : List Char) : List Char :=
  l.map fun c => if c.isAlphanum || isPySpace c || c = '%' then c else ' '

/-- `re.sub(r"\s+", " ", label)`: collapse whitespace runs to one space.
`inRun` records that the current run already emitted its space. -/
def collapseWsAux : Bool → List Char → List Char
  | _, [] => []
  | inRun, c :: rest =>
    if isPySpace c then
      if inRun then collapseWsAux true rest
      else ' ' :: collapseWsAux true rest
    else c :: collapseWsAux false rest

def collapseWs (l : List Char) : List Char := collapseWsAux false l

/-- `str.strip()`. -/
def pyStrip (l : List Char) : List Char :=
  ((l.dropWhile isPySpace).reverse.dropWhile isPySpace).reverse

/-- `re.sub(r"\bX\s+" ++ mid ++ r"\b", repl, label)` for a literal word
tail `mid` (the two rewrites of `process_label_clear`).  `prev` is the
original character before the scan position; the fuel argument makes the
scan total (each step consumes at least one character). -/
def subXPat (mid repl : List Char) : ℕ → Option Char → List Char → List Char
  | 0, _, l => l
  | _, _, [] => []
  | fuel + 1, prev, c :: rest =>
    if c = 'X' && boundaryBefore prev then
      let ws := rest.takeWhile isPySpace
      let rest1 := rest.dropWhile isPySpace
      if ws ≠ [] && rest1.take mid.length = mid &&
          boundaryAfter (rest1.drop mid.length) then
        repl ++ subXPat mid repl fuel (some (mid.getLastD 'X')) (rest1.drop mid.length)
      else
        c :: subXPat mid repl fuel (some c) rest
    else
      c :: subXPat mid repl fuel (some c) rest

/-- The shared cleansing core of `process_label_ccap` and
`process_label_clear` applied to a non-null, non-empty label. -/
def cleanseCore (nfd : String → String) (s : String) : List Char :=
  let t0 := (normalize_text nfd (some s)).data
  let t1 := removeNumSep none t0
  let t2 := joinNumRuns t1.length none t1
  let t3 := digitsToX none false t2
  let t4 := keepAlnumSpace t3
  pyStrip (collapseWs t4)

/-- `process_label_ccap` (src/utils/UtilsDQAnalysis.py, lines 137-180). -/
def process_label_ccap (nfd : String → String) (label : Option String) : String :=
  match label with
  | none => ""
  | some s => if s = "" then "" else String.mk (cleanseCore nfd s)

/-- `process_label_clear` (src/utils/UtilsDQAnalysis.py, lines 183-206):
the shared core followed by the `X mX -> xmx` and `X l -> xL` rewrites. -/
def process_label_clear (nfd : String → String) (label : Option String) : String :=
  match label with
  | none => ""
  | some s =>
    if s = "" then ""
    else
      let t5 := cleanseCore nfd s
      let t6 := subXPat ['m', 'X'] ['x', 'm', 'x'] t5.length none t5
      let t7 := subXPat ['l'] ['x', 'L'] t6.length none t6
      String.mk t7

/-- The output contract of the cleansed labels on character lists: only
ASCII alphanumerics, `%` and spaces; no two adjacent spaces; no leading or
trailing space. -/
def CleanChars (l : List Char) : Prop :=
  (∀ c ∈ l, c.isAlphanum = true ∨ c = '%' ∨ c = ' ') ∧
  l.Chain' (fun a b => ¬(a = ' ' ∧ b = ' ')) ∧
  (∀ c, l.head? = some c → c ≠ ' ') ∧
  (∀ c, l.getLast? = some c → c ≠ ' ')

/-- The output contract of the cleansed labels: only ASCII alphanumerics,
`%` and spaces; no two adjacent spaces; no leading or trailing space. -/
def CleanString (s : String) : Prop :=
  CleanChars s.data

/-! ### Concrete instances used to evaluate the embedding -/

/-- A one-algorithm configuration over an abstract similarity function
(the `algorithm_mapping` dict restricted to one known identifier). -/
def mapOf (f : SimFun) : Unit → Option SimFun := fun _ => some f

/-- The `algorithm_mapping.get` result for an unknown identifier. -/
def mapUnknown : Unit → Option SimFun := fun _ => none

def simConst1 : SimFun := fun _ _ => 1

def simConst0 : SimFun := fun _ _ => 0

/-- A similarity giving the empty label no matches and any two distinct
non-empty labels a perfect score. -/
def simNoEmpty : SimFun := fun a b => if a = "" ∨ b = "" then 0 else 1

/-- A symmetric similarity with a qualifying chain: score a-b is 1,
score b-c is 4/5, every other pair scores 0. -/
def simChain : SimFun := fun a b =>
  if (a = "a" ∧ b = "b") ∨ (a = "b" ∧ b = "a") then 1
  else if (a = "b" ∧ b = "c") ∨ (a = "c" ∧ b = "b") then mkRat 4 5
  else 0

/-- A dataframe with a NaN label next to two matchable labels. -/
def dfNised : List Record := [⟨0, none⟩, ⟨1, some "a"⟩, ⟨2, some "b"⟩]

/-- A dataframe with two empty-string labels next to two matchable labels. -/
def dfEmpties : List Record :=
  [⟨0, some ""⟩, ⟨1, some ""⟩, ⟨2, some "a"⟩, ⟨3, some "b"⟩]

/-- A dataframe pairing an empty-string label with a non-empty one. -/
def dfEmptyPair : List Record := [⟨0, some ""⟩, ⟨1, some "a"⟩]

def dfAB : List Record := [⟨0, some "a"⟩, ⟨1, some "b"⟩]

def dfChain : List Record := [⟨0, some "a"⟩, ⟨1, some "b"⟩, ⟨2, some "c"⟩]

/-- The rows of a pipeline result (`[]` when it raised). -/
def okRows (e : Except String (List ORecord)) : List ORecord :=
  match e with
  | .ok rows => rows
  | .error _ => []

/-- The pairs of a similarity computation (`[]` when it raised). -/
def okPairs (e : Except String (List ScoredPair)) : List ScoredPair :=
  match e with
  | .ok qs => qs
  | .error _ => []

/-- Whether a computation completed without raising. -/
def exceptIsOk (e : Except String β) : Bool :=
  match e with
  | .ok _ => true
  | .error _ => false

/-- A placeholder output row (used as a `getD` default). -/
def oDefault : ORecord := ORecord.mk 0 none none none

/-! ## Utility lemmas -/

theorem pairCombinations_length : ∀ l : List α, (pairCombinations l).length = l.length.choose 2
  | [] => rfl
  | x :: xs => by
    simp only [pairCombinations, List.length_append, List.length_map,
      pairCombinations_length xs, List.length_cons]
    rw [Nat.choose_succ_succ, Nat.choose_one_right]

theorem mem_pairCombinations_mem {a b : α} :
    ∀ {l : List α}, (a, b) ∈ pairCombinations l → a ∈ l ∧ b ∈ l := by
  intro l
  induction l with
  | nil => intro h; simp [pairCombinations] at h
  | cons x xs ih =>
    intro h
    simp only [pairCombinations, List.mem_append, List.mem_map] at h
    rcases h with ⟨y, hy, he⟩ | h
    · injection he with h1 h2
      subst h1; subst h2
      exact ⟨List.mem_cons_self _ _, List.mem_cons_of_mem _ hy⟩
    · exact ⟨List.mem_cons_of_mem _ (ih h).1, List.mem_cons_of_mem _ (ih h).2⟩

theorem mem_pairCombinations_ne {a b : α} :
    ∀ {l : List α}, l.Nodup → (a, b) ∈ pairCombinations l → a ≠ b := by
  intro l
  induction l with
  | nil => intro _ h; simp [pairCombinations] at h
  | cons x xs ih =>
    intro hnd h
    simp only [pairCombinations, List.mem_append, List.mem_map] at h
    rcases h with ⟨y, hy, he⟩ | h
    · injection he with h1 h2
      subst h1; subst h2
      exact fun hab => (List.nodup_cons.mp hnd).1 (hab ▸ hy)
    · exact ih (List.nodup_cons.mp hnd).2 h

theorem pairCombinations_mem_of {a b : α} (hne : a ≠ b) :
    ∀ {l : List α}, a ∈ l → b ∈ l →
      (a, b) ∈ pairCombinations l ∨ (b, a) ∈ pairCombinations l := by
  intro l
  induction l with
  | nil => intro ha; simp at ha
  | cons x xs ih =>
    intro ha hb
    simp only [pairCombinations, List.mem_append, List.mem_map]
    by_cases hax : a = x
    · have hbxs : b ∈ xs := by
        rcases List.mem_cons.mp hb with h | h
        · exact absurd (hax.trans h.symm) hne
        · exact h
      exact Or.inl (Or.inl ⟨b, hbxs, by rw [hax]⟩)
    · by_cases hbx : b = x
      · have haxs : a ∈ xs := by
          rcases List.mem_cons.mp ha with h | h
          · exact absurd h hax
          · exact h
        exact Or.inr (Or.inl ⟨a, haxs, by rw [hbx]⟩)
      · have haxs : a ∈ xs := by
          rcases List.mem_cons.mp ha with h | h
          · exact absurd h hax
          · exact h
        have hbxs : b ∈ xs := by
          rcases List.mem_cons.mp hb with h | h
          · exact absurd h hbx
          · exact h
        rcases ih haxs hbxs with h | h
        · exact Or.inl (Or.inr h)
        · exact Or.inr (Or.inr h)

theorem dedupKeepFirst_sublist [DecidableEq α] :
    ∀ l : List α, List.Sublist (dedupKeepFirst l) l := by
  intro l
  induction l with
  | nil => simp [dedupKeepFirst]
  | cons x xs ih =>
    rw [dedupKeepFirst]
    exact ((List.filter_sublist _).trans ih).cons₂ x

theorem mem_dedupKeepFirst [DecidableEq α] {l : List α} {a : α} :
    a ∈ dedupKeepFirst l ↔ a ∈ l := by
  induction l with
  | nil => simp [dedupKeepFirst]
  | cons x xs ih =>
    rw [dedupKeepFirst]
    by_cases hax : a = x
    · subst hax; simp
    · simp only [List.mem_cons, List.mem_filter, ih, ne_eq, decide_eq_true_eq]
      constructor
      · rintro (rfl | ⟨h, _⟩)
        · exact Or.inl rfl
        · exact Or.inr h
      · rintro (rfl | h)
        · exact Or.inl rfl
        · exact Or.inr ⟨h, hax⟩

theorem dedupKeepFirst_nodup [DecidableEq α] :
    ∀ l : List α, (dedupKeepFirst l).Nodup := by
  intro l
  induction l with
  | nil => simp [dedupKeepFirst]
  | cons x xs ih =>
    rw [dedupKeepFirst, List.nodup_cons]
    refine ⟨fun hx => ?_, ih.filter _⟩
    rcases List.mem_filter.mp hx with ⟨_, hne⟩
    simp at hne

theorem dedupKeepFirst_eq_self [DecidableEq α] {l : List α} (h : l.Nodup) :
    dedupKeepFirst l = l := by
  induction l with
  | nil => rfl
  | cons x xs ih =>
    rw [dedupKeepFirst]
    obtain ⟨hx, hxs⟩ := List.nodup_cons.mp h
    rw [ih hxs]
    congr 1
    apply List.filter_eq_self.mpr
    intro y hy
    simp only [ne_eq, decide_eq_true_eq]
    exact fun hyx => hx (hyx ▸ hy)

theorem dedupByKey_sublist (f : α → β) [DecidableEq β] :
    ∀ l : List α, List.Sublist (dedupByKey f l) l := by
  intro l
  induction l with
  | nil => simp [dedupByKey]
  | cons x xs ih =>
    rw [dedupByKey]
    exact ((List.filter_sublist _).trans ih).cons₂ x

theorem mem_map_dedupByKey (f : α → β) [DecidableEq β] {l : List α} {b : β} :
    b ∈ (dedupByKey f l).map f ↔ b ∈ l.map f := by
  induction l with
  | nil => simp [dedupByKey]
  | cons x xs ih =>
    rw [dedupByKey]
    by_cases hbx : b = f x
    · subst hbx; simp
    · simp only [List.map_cons, List.mem_cons, List.mem_map, List.mem_filter,
        decide_eq_true_eq]
      constructor
      · rintro (h | ⟨a, ⟨ha, _⟩, rfl⟩)
        · exact Or.inl h
        · have : f a ∈ (dedupByKey f xs).map f := List.mem_map.mpr ⟨a, ha, rfl⟩
          rcases List.mem_map.mp (ih.mp this) with ⟨a2, ha2, he2⟩
          exact Or.inr ⟨a2, ha2, he2⟩
      · rintro (h | ⟨a, ha, rfl⟩)
        · exact Or.inl h
        · have : f a ∈ xs.map f := List.mem_map.mpr ⟨a, ha, rfl⟩
          rcases List.mem_map.mp (ih.mpr this) with ⟨a2, ha2, he2⟩
          refine Or.inr ⟨a2, ⟨ha2, ?_⟩, he2⟩
          simp only [ne_eq, decide_eq_true_eq]
          exact fun hfa => hbx (he2 ▸ hfa)

theorem map_dedupByKey_nodup (f : α → β) [DecidableEq β] :
    ∀ l : List α, ((dedupByKey f l).map f).Nodup := by
  intro l
  induction l with
  | nil => simp [dedupByKey]
  | cons x xs ih =>
    rw [dedupByKey, List.map_cons, List.nodup_cons]
    constructor
    · intro hx
      rcases List.mem_map.mp hx with ⟨a, ha, hfa⟩
      rcases List.mem_filter.mp ha with ⟨_, hne⟩
      simp only [ne_eq, decide_eq_true_eq] at hne
      exact hne hfa
    · have hsub : List.Sublist ((dedupByKey f xs).filter fun y => f y ≠ f x)
          (dedupByKey f xs) := List.filter_sublist _
      exact ih.sublist (hsub.map f)

theorem foldl_max_mem : ∀ (xs : List ℚ) (a : ℚ), xs.foldl max a = a ∨ xs.foldl max a ∈ xs := by
  intro xs
  induction xs with
  | nil => exact fun a => Or.inl rfl
  | cons y ys ih =>
    intro a
    simp only [List.foldl_cons]
    rcases ih (max a y) with h | h
    · rcases max_choice a y with hm | hm
      · exact Or.inl (by rw [h, hm])
      · exact Or.inr (by rw [h, hm]; exact List.mem_cons_self _ _)
    · exact Or.inr (List.mem_cons_of_mem _ h)

theorem pyMax_mem : ∀ {l : List ℚ}, l ≠ [] → pyMax l ∈ l := by
  intro l hl
  match l with
  | x :: xs =>
    rcases foldl_max_mem xs x with h | h
    · rw [pyMax, h]; exact List.mem_cons_self _ _
    · rw [pyMax]; exact List.mem_cons_of_mem _ h

theorem pyMax_le {l : List ℚ} {b : ℚ} (hne : l ≠ []) (h : ∀ x ∈ l, x ≤ b) :
    pyMax l ≤ b :=
  h _ (pyMax_mem hne)

theorem le_pyMax : ∀ {l : List ℚ} {x : ℚ}, x ∈ l → x ≤ pyMax l := by
  suffices h : ∀ (xs : List ℚ) (a : ℚ), a ≤ xs.foldl max a ∧ ∀ x ∈ xs, x ≤ xs.foldl max a by
    intro l x hx
    match l with
    | y :: ys =>
      rw [pyMax]
      rcases List.mem_cons.mp hx with rfl | hx
      · exact (h ys x).1
      · exact (h ys y).2 x hx
  intro xs
  induction xs with
  | nil => exact fun a => ⟨le_refl a, by simp⟩
  | cons y ys ih =>
    intro a
    simp only [List.foldl_cons]
    refine ⟨le_trans (le_max_left a y) (ih (max a y)).1, ?_⟩
    intro x hx
    rcases List.mem_cons.mp hx with rfl | hx
    · exact le_trans (le_max_right a x) (ih (max a x)).1
    · exact (ih (max a y)).2 x hx

theorem pairCombinations_eq_nil {l : List α} (h : l.length ≤ 1) :
    pairCombinations l = [] := by
  match l with
  | [] => rfl
  | [x] => rfl
  | x :: y :: rest => simp at h

theorem pairCombinations_ne_nil {l : List α} (h : 2 ≤ l.length) :
    pairCombinations l ≠ [] := by
  have hpos : 0 < (pairCombinations l).length := by
    rw [pairCombinations_length]
    exact Nat.choose_pos h
  exact List.ne_nil_of_length_pos hpos

theorem dedupKeepFirst_length [DecidableEq α] (l : List α) :
    (dedupKeepFirst l).length = l.toFinset.card := by
  have h1 : (dedupKeepFirst l).toFinset = l.toFinset := by
    ext a
    simp [List.mem_toFinset, mem_dedupKeepFirst]
  calc (dedupKeepFirst l).length
      = (dedupKeepFirst l).toFinset.card :=
        (List.toFinset_card_of_nodup (dedupKeepFirst_nodup l)).symm
    _ = l.toFinset.card := by rw [h1]

/-! ## The similarity matrix -/

theorem fnsOf_ne_nil {mapping : α → Option SimFun} {algos : List α}
    (hne : algos ≠ []) (hknown : ∀ a ∈ algos, (mapping a).isSome) :
    fnsOf mapping algos ≠ [] := by
  match algos with
  | a :: rest =>
    rcases Option.isSome_iff_exists.mp (hknown a (List.mem_cons_self a rest)) with ⟨f, hf⟩
    rw [fnsOf, List.map_cons, hf, List.reduceOption_cons_of_some]
    exact List.cons_ne_nil f _

theorem mapNone_any_false {mapping : α → Option SimFun} {algos : List α}
    (hknown : ∀ a ∈ algos, (mapping a).isSome) :
    (algos.map mapping).any Option.isNone = false := by
  rw [List.any_eq_false]
  intro o ho
  rcases List.mem_map.mp ho with ⟨a, ha, rfl⟩
  rcases Option.isSome_iff_exists.mp (hknown a ha) with ⟨f, hf⟩
  simp [hf]

theorem computeSimilarityMatrix_eq_ok {mapping : α → Option SimFun} {algos : List α}
    {t : ℚ} {column : List String}
    (hknown : ∀ a ∈ algos, (mapping a).isSome)
    (hpairs : pairCombinations (dedupKeepFirst column) ≠ [])
    (hfns : fnsOf mapping algos ≠ []) :
    computeSimilarityMatrix mapping algos t column =
      .ok (((pairCombinations (dedupKeepFirst column)).map fun p =>
        ScoredPair.mk p.1 p.2 (simScore (fnsOf mapping algos) p.1 p.2)).filter
          fun sp => t ≤ sp.score) := by
  have h1 := mapNone_any_false hknown
  have h2 : (pairCombinations (dedupKeepFirst column)).isEmpty = false := by
    cases hl : pairCombinations (dedupKeepFirst column) with
    | nil => exact absurd hl hpairs
    | cons p ps => rfl
  have h3 : (fnsOf mapping algos).isEmpty = false := by
    cases hl : fnsOf mapping algos with
    | nil => exact absurd hl hfns
    | cons f fs => rfl
  rw [fnsOf] at h3
  simp only [computeSimilarityMatrix, h1, h2, h3, Bool.false_eq_true, if_false, fnsOf]

theorem computeSimilarityMatrix_mem_ok {mapping : α → Option SimFun} {algos : List α}
    {t : ℚ} {column : List String} {a b : String} {s : ℚ}
    (hknown : ∀ a ∈ algos, (mapping a).isSome)
    (hpairs : pairCombinations (dedupKeepFirst column) ≠ [])
    (hfns : fnsOf mapping algos ≠ []) {qs : List ScoredPair}
    (hok : computeSimilarityMatrix mapping algos t column = .ok qs) :
    (ScoredPair.mk a b s ∈ qs ↔
      ((a, b) ∈ pairCombinations (dedupKeepFirst column) ∧
        s = simScore (fnsOf mapping algos) a b ∧ t ≤ s)) := by
  rw [computeSimilarityMatrix_eq_ok hknown hpairs hfns] at hok
  injection hok with hok
  subst hok
  constructor
  · intro h
    rcases List.mem_filter.mp h with ⟨hm, hs⟩
    rcases List.mem_map.mp hm with ⟨p, hp, he⟩
    injection he with h1 h2 h3
    subst h1; subst h2; subst h3
    simp only [decide_eq_true_eq] at hs
    exact ⟨hp, rfl, hs⟩
  · rintro ⟨hp, rfl, hs⟩
    refine List.mem_filter.mpr ⟨List.mem_map.mpr ⟨(a, b), hp, rfl⟩, ?_⟩
    simp only [decide_eq_true_eq]
    exact hs

theorem simScore_symm {fns : List SimFun}
    (hsym : ∀ f ∈ fns, ∀ x y, f x y = f y x) (a b : String) :
    simScore fns a b = simScore fns b a := by
  unfold simScore
  congr 1
  exact List.map_congr_left fun f hf => hsym f hf a b

/-- C2: with distinct labels, all algorithms known and at least two
distinct labels, `compute_similarity_matrix` returns exactly the unordered
pairs whose maximal similarity reaches the threshold, over all
`C(n,2)` combinations; the reported scores are the maxima and stay in
`[0,1]` when every algorithm does. -/
theorem compute_similarity_matrix_exhaustive {α : Type} (mapping : α → Option SimFun)
    (algos : List α) (t : ℚ) (column : List String)
    (hnd : column.Nodup) (hlen : 2 ≤ column.length) (hne : algos ≠ [])
    (hknown : ∀ a ∈ algos, (mapping a).isSome)
    (hsym : ∀ f ∈ fnsOf mapping algos, ∀ x y, f x y = f y x)
    (hunit : ∀ f ∈ fnsOf mapping algos, ∀ x y, 0 ≤ f x y ∧ f x y ≤ 1) :
    ∃ qs, computeSimilarityMatrix mapping algos t column = .ok qs ∧
      (pairCombinations column).length = column.length.choose 2 ∧
      (∀ sp ∈ qs, 0 ≤ sp.score ∧ sp.score ≤ 1) ∧
      (∀ a b : String,
        ((∃ s, ScoredPair.mk a b s ∈ qs) ∨ (∃ s, ScoredPair.mk b a s ∈ qs)) ↔
          (a ∈ column ∧ b ∈ column ∧ a ≠ b ∧
            t ≤ simScore (fnsOf mapping algos) a b)) := by
  have hded : dedupKeepFirst column = column := dedupKeepFirst_eq_self hnd
  have hpairs : pairCombinations (dedupKeepFirst column) ≠ [] := by
    rw [hded]; exact pairCombinations_ne_nil hlen
  have hfns : fnsOf mapping algos ≠ [] := fnsOf_ne_nil hne hknown
  refine ⟨_, computeSimilarityMatrix_eq_ok hknown hpairs hfns, pairCombinations_length _, ?_, ?_⟩
  · intro sp hsp
    rcases List.mem_filter.mp hsp with ⟨hm, _⟩
    rcases List.mem_map.mp hm with ⟨p, hp, he⟩
    subst he
    have hmemscores : ((fnsOf mapping algos).map fun f => f p.1 p.2) ≠ [] := by
      simp only [ne_eq, List.map_eq_nil_iff]
      exact hfns
    constructor
    · have hmem := pyMax_mem hmemscores
      rcases List.mem_map.mp hmem with ⟨f, hf, he⟩
      show 0 ≤ simScore (fnsOf mapping algos) p.1 p.2
      rw [simScore, ← he]
      exact (hunit f hf p.1 p.2).1
    · show simScore (fnsOf mapping algos) p.1 p.2 ≤ 1
      rw [simScore]
      apply pyMax_le hmemscores
      intro x hx
      rcases List.mem_map.mp hx with ⟨f, hf, rfl⟩
      exact (hunit f hf p.1 p.2).2
  · intro a b
    have hok := computeSimilarityMatrix_eq_ok (t := t) hknown hpairs hfns
    constructor
    · rintro (⟨s, hs⟩ | ⟨s, hs⟩)
      · rcases (computeSimilarityMatrix_mem_ok hknown hpairs hfns hok).mp hs with
          ⟨hp, rfl, hts⟩
        rw [hded] at hp
        rcases mem_pairCombinations_mem hp with ⟨ha, hb⟩
        exact ⟨ha, hb, mem_pairCombinations_ne hnd hp, hts⟩
      · rcases (computeSimilarityMatrix_mem_ok hknown hpairs hfns hok).mp hs with
          ⟨hp, rfl, hts⟩
        rw [hded] at hp
        rcases mem_pairCombinations_mem hp with ⟨hb, ha⟩
        refine ⟨ha, hb, (mem_pairCombinations_ne hnd hp).symm, ?_⟩
        rw [simScore_symm hsym]
        exact hts
    · rintro ⟨ha, hb, hne2, hts⟩
      rcases pairCombinations_mem_of hne2 ha hb with hp | hp
      · exact Or.inl ⟨simScore (fnsOf mapping algos) a b,
          (computeSimilarityMatrix_mem_ok hknown hpairs hfns hok).mpr
            ⟨by rw [hded]; exact hp, rfl, hts⟩⟩
      · refine Or.inr ⟨simScore (fnsOf mapping algos) b a,
          (computeSimilarityMatrix_mem_ok hknown hpairs hfns hok).mpr
            ⟨by rw [hded]; exact hp, rfl, ?_⟩⟩
        rw [← simScore_symm hsym]
        exact hts

/-- C9: with fewer than two distinct labels the pair list is empty and
`zip(*label_pairs)` raises rather than returning an empty match set. -/
theorem compute_similarity_matrix_needs_two_labels {α : Type}
    (mapping : α → Option SimFun) (algos : List α) (t : ℚ) (column : List String)
    (hknown : ∀ a ∈ algos, (mapping a).isSome)
    (hcard : column.toFinset.card ≤ 1) :
    computeSimilarityMatrix mapping algos t column = .error unpackErrMsg := by
  have h1 := mapNone_any_false hknown
  have h2 : pairCombinations (dedupKeepFirst column) = [] := by
    apply pairCombinations_eq_nil
    rw [dedupKeepFirst_length]
    exact hcard
  simp only [computeSimilarityMatrix, h1, h2, Bool.false_eq_true, if_false,
    List.isEmpty_nil, if_true]

/-- C5 (amended): only the unknown-identifier case is validated before the
pairwise work: an unknown algorithm makes the computation fail at once for
every threshold and label column, while an empty algorithm list only
raises through `max([])` once a first pair exists (and the threshold is
never validated at all, see the counterexample). -/
theorem config_validation_amended {α : Type} (mapping : α → Option SimFun)
    (algos : List α) (t : ℚ) (column : List String) :
    ((∃ a ∈ algos, mapping a = none) →
      computeSimilarityMatrix mapping algos t column = .error unknownAlgoMsg) ∧
    (algos = [] → 2 ≤ column.toFinset.card →
      computeSimilarityMatrix mapping algos t column = .error emptyMaxMsg) := by
  constructor
  · rintro ⟨a, ha, hnone⟩
    have h1 : (algos.map mapping).any Option.isNone = true := by
      rw [List.any_eq_true]
      exact ⟨mapping a, List.mem_map.mpr ⟨a, ha, rfl⟩, by rw [hnone]; rfl⟩
    simp only [computeSimilarityMatrix, h1, if_true]
  · rintro rfl hcard
    have h2 : (pairCombinations (dedupKeepFirst column)).isEmpty = false := by
      have : pairCombinations (dedupKeepFirst column) ≠ [] := by
        apply pairCombinations_ne_nil
        rw [dedupKeepFirst_length]
        exact hcard
      cases hl : pairCombinations (dedupKeepFirst column) with
      | nil => exact absurd hl this
      | cons p ps => rfl
    simp only [computeSimilarityMatrix, List.map_nil, List.any_nil, h2,
      Bool.false_eq_true, if_false, List.reduceOption_nil, List.isEmpty_nil, if_true]

/-- C8: when no pair of distinct working labels clears the threshold, the
reference batch `create_matched_dataframe` raises the fatal no-match error
instead of returning an empty result. -/
theorem create_matched_dataframe_empty_match_fatal {α : Type}
    (mapping : α → Option SimFun) (algos : List α) (t : ℚ) (df : List Record)
    (hknown : ∀ a ∈ algos, (mapping a).isSome) (hne : algos ≠ [])
    (hlen : 2 ≤ (columnOf df).length)
    (hall : ∀ p ∈ pairCombinations (columnOf df),
      simScore (fnsOf mapping algos) p.1 p.2 < t) :
    create_matched_dataframe mapping algos t df = .error noMatchMsg := by
  have hnd : (columnOf df).Nodup := map_dedupByKey_nodup _ _
  have hded : dedupKeepFirst (columnOf df) = columnOf df := dedupKeepFirst_eq_self hnd
  have hpairs : pairCombinations (dedupKeepFirst (columnOf df)) ≠ [] := by
    rw [hded]; exact pairCombinations_ne_nil hlen
  have hfns := fnsOf_ne_nil hne hknown
  have hok := @computeSimilarityMatrix_eq_ok _ mapping algos t (columnOf df) hknown hpairs hfns
  have hfilter : ((pairCombinations (dedupKeepFirst (columnOf df))).map fun p =>
      ScoredPair.mk p.1 p.2 (simScore (fnsOf mapping algos) p.1 p.2)).filter
        (fun sp => t ≤ sp.score) = [] := by
    rw [List.filter_eq_nil_iff]
    intro sp hsp
    rcases List.mem_map.mp hsp with ⟨p, hp, rfl⟩
    simp only [decide_eq_true_eq]
    rw [hded] at hp
    exact not_le.mpr (hall p hp)
  rw [hfilter] at hok
  simp only [create_matched_dataframe, hok, List.isEmpty_nil, if_true]

/-! ## Connected components of the group graph -/

theorem conn_mono {g1 g2 : List (List ℕ)} (hsub : ∀ g ∈ g1, g ∈ g2) {a b : ℕ}
    (h : Conn g1 a b) : Conn g2 a b := by
  refine Relation.TransGen.mono ?_ h
  rintro x y ⟨g, hg, hx, hy⟩
  exact ⟨g, hsub g hg, hx, hy⟩

theorem conn_congr {g1 g2 : List (List ℕ)} (h : ∀ g, g ∈ g1 ↔ g ∈ g2) {a b : ℕ} :
    Conn g1 a b ↔ Conn g2 a b :=
  ⟨conn_mono fun g hg => (h g).mp hg, conn_mono fun g hg => (h g).mpr hg⟩

theorem conn_nil {a b : ℕ} (h : Conn ([] : List (List ℕ)) a b) : False := by
  induction h with
  | single h => rcases h with ⟨g, hg, _⟩; simp at hg
  | tail _ h ih => rcases h with ⟨g, hg, _⟩; simp at hg

theorem pdisj_symmetric :
    Symmetric fun c d : List ℕ => ∀ x, x ∈ c → x ∈ d → False :=
  fun _ _ h x hx hy => h x hy hx

theorem sameCell_trans {P : List (List ℕ)} (hd : PDisj P) {a b k : ℕ}
    (h1 : SameCell P a b) (h2 : SameCell P b k) : SameCell P a k := by
  rcases h1 with ⟨c1, hc1, ha1, hb1⟩
  rcases h2 with ⟨c2, hc2, hb2, hk2⟩
  by_cases hcc : c1 = c2
  · subst hcc
    exact ⟨c1, hc1, ha1, hk2⟩
  · exact absurd (List.Pairwise.forall pdisj_symmetric hd hc1 hc2 hcc b hb1 hb2) id

theorem newcell_conn_g {G P : List (List ℕ)} {g : List ℕ}
    (hs : ∀ a b, SameCell P a b → Conn G a b) :
    ∀ x ∈ g ++ (P.filter fun cell => cell.any fun k => k ∈ g).flatten,
      ∀ y ∈ g, Conn (g :: G) x y := by
  intro x hx y hy
  have hmono : ∀ u v : ℕ, Conn G u v → Conn (g :: G) u v :=
    fun u v => conn_mono fun h hh => List.mem_cons_of_mem _ hh
  rcases List.mem_append.mp hx with hxg | hxt
  · exact Relation.TransGen.single ⟨g, List.mem_cons_self _ _, hxg, hy⟩
  · rcases List.mem_flatten.mp hxt with ⟨cell, hcellmem, hxcell⟩
    rcases List.mem_filter.mp hcellmem with ⟨hcellP, hq⟩
    rcases List.any_eq_true.mp hq with ⟨w, hwcell, hwg⟩
    simp only [decide_eq_true_eq] at hwg
    have h1 : Conn (g :: G) x w := hmono _ _ (hs x w ⟨cell, hcellP, hxcell, hwcell⟩)
    exact h1.trans (Relation.TransGen.single ⟨g, List.mem_cons_self _ _, hwg, hy⟩)

theorem insertGroup_sound {G P : List (List ℕ)} {g : List ℕ}
    (hs : ∀ a b, SameCell P a b → Conn G a b) :
    ∀ a b, SameCell (insertGroup g P) a b → Conn (g :: G) a b := by
  have hmono : ∀ u v : ℕ, Conn G u v → Conn (g :: G) u v :=
    fun u v => conn_mono fun h hh => List.mem_cons_of_mem _ hh
  rintro a b ⟨cell, hcell, ha, hb⟩
  rcases List.mem_cons.mp hcell with rfl | hcell
  · rcases List.mem_append.mp hb with hbg | hbt
    · exact newcell_conn_g hs a ha b hbg
    · rcases List.mem_flatten.mp hbt with ⟨cellb, hcbmem, hbcell⟩
      rcases List.mem_filter.mp hcbmem with ⟨hcbP, hq⟩
      rcases List.any_eq_true.mp hq with ⟨w, hwcell, hwg⟩
      simp only [decide_eq_true_eq] at hwg
      have h1 : Conn (g :: G) a w := newcell_conn_g hs a ha w hwg
      have h2 : Conn (g :: G) w b := hmono _ _ (hs w b ⟨cellb, hcbP, hwcell, hbcell⟩)
      exact h1.trans h2
  · rcases List.mem_filter.mp hcell with ⟨hcP, _⟩
    exact hmono _ _ (hs a b ⟨cell, hcP, ha, hb⟩)

theorem insertGroup_disj {P : List (List ℕ)} {g : List ℕ} (hd : PDisj P) :
    PDisj (insertGroup g P) := by
  rw [insertGroup, PDisj, List.pairwise_cons]
  constructor
  · intro d hdmem x hxnew hxd
    rcases List.mem_filter.mp hdmem with ⟨hdP, hnq⟩
    rcases List.mem_append.mp hxnew with hxg | hxt
    · have : d.any (fun k => k ∈ g) = true := List.any_eq_true.mpr
        ⟨x, hxd, by simp only [decide_eq_true_eq]; exact hxg⟩
      simp [this] at hnq
    · rcases List.mem_flatten.mp hxt with ⟨cell, hcmem, hxcell⟩
      rcases List.mem_filter.mp hcmem with ⟨hcP, hq⟩
      have hne : cell ≠ d := by
        intro he
        subst he
        simp [hq] at hnq
      exact List.Pairwise.forall pdisj_symmetric hd hcP hdP hne x hxcell hxd
  · exact List.Pairwise.sublist (List.filter_sublist _) hd

theorem step_sameCell {G P : List (List ℕ)} {g : List ℕ}
    (hc : ∀ a b, Conn G a b → SameCell P a b)
    {a b : ℕ} (hstep : ConnStep (g :: G) a b) :
    SameCell (insertGroup g P) a b := by
  rcases hstep with ⟨g', hg', ha, hb⟩
  rcases List.mem_cons.mp hg' with rfl | hg'
  · exact ⟨_, List.mem_cons_self _ _,
      List.mem_append.mpr (Or.inl ha), List.mem_append.mpr (Or.inl hb)⟩
  · rcases hc a b (Relation.TransGen.single ⟨g', hg', ha, hb⟩) with ⟨cell, hcP, hac, hbc⟩
    by_cases hq : cell.any (fun k => k ∈ g) = true
    · have hcmem : cell ∈ P.filter fun cell => cell.any fun k => k ∈ g :=
        List.mem_filter.mpr ⟨hcP, hq⟩
      exact ⟨_, List.mem_cons_self _ _,
        List.mem_append.mpr (Or.inr (List.mem_flatten.mpr ⟨cell, hcmem, hac⟩)),
        List.mem_append.mpr (Or.inr (List.mem_flatten.mpr ⟨cell, hcmem, hbc⟩))⟩
    · refine ⟨cell, List.mem_cons_of_mem _ (List.mem_filter.mpr ⟨hcP, ?_⟩), hac, hbc⟩
      simp only [Bool.not_eq_true] at hq
      simp [hq]

theorem insertGroup_complete {G P : List (List ℕ)} {g : List ℕ}
    (hd : PDisj P) (hc : ∀ a b, Conn G a b → SameCell P a b) :
    ∀ a b, Conn (g :: G) a b → SameCell (insertGroup g P) a b := by
  have hd' : PDisj (insertGroup g P) := insertGroup_disj hd
  intro a b h
  induction h with
  | single hstep => exact step_sameCell hc hstep
  | tail hab hbc ih => exact sameCell_trans hd' ih (step_sameCell hc hbc)

theorem insertGroup_inv {G P : List (List ℕ)} {g : List ℕ} (h : PartInv G P) :
    PartInv (g :: G) (insertGroup g P) :=
  ⟨insertGroup_sound h.1, insertGroup_complete h.2.2 h.2.1, insertGroup_disj h.2.2⟩

theorem foldl_insertGroup_inv :
    ∀ (gs P G : List (List ℕ)), PartInv G P →
      PartInv (gs.reverse ++ G) (gs.foldl (fun P g => insertGroup g P) P) := by
  intro gs
  induction gs with
  | nil => intro P G h; simpa using h
  | cons g rest ih =>
    intro P G h
    have h1 : PartInv (g :: G) (insertGroup g P) := insertGroup_inv h
    have h2 := ih (insertGroup g P) (g :: G) h1
    simp only [List.foldl_cons]
    have he : rest.reverse ++ (g :: G) = (g :: rest).reverse ++ G := by
      simp [List.reverse_cons, List.append_assoc]
    rw [he] at h2
    exact h2

theorem partInv_nil : PartInv ([] : List (List ℕ)) [] := by
  refine ⟨?_, ?_, List.Pairwise.nil⟩
  · rintro a b ⟨cell, hcell, _⟩
    simp at hcell
  · intro a b h
    exact absurd h (fun h => conn_nil h)

theorem buildPartition_inv (gs : List (List ℕ)) :
    PartInv gs.reverse (buildPartition gs) :=
  List.append_nil gs.reverse ▸ foldl_insertGroup_inv gs [] [] partInv_nil

theorem sameCell_buildPartition_iff_conn (gs : List (List ℕ)) (a b : ℕ) :
    SameCell (buildPartition gs) a b ↔ Conn gs a b := by
  have h := buildPartition_inv gs
  have hrev : ∀ g : List ℕ, g ∈ gs.reverse ↔ g ∈ gs := fun g => List.mem_reverse
  constructor
  · intro hs
    exact (conn_congr hrev).mp (h.1 a b hs)
  · intro hc
    exact h.2.1 a b ((conn_congr hrev).mpr hc)

theorem buildPartition_disj (gs : List (List ℕ)) : PDisj (buildPartition gs) :=
  (buildPartition_inv gs).2.2

theorem cellIndex_isSome_iff {P : List (List ℕ)} {k : ℕ} :
    (cellIndex P k).isSome = true ↔ ∃ cell ∈ P, k ∈ cell := by
  induction P with
  | nil => simp [cellIndex]
  | cons cell rest ih =>
    rw [cellIndex]
    by_cases hk : k ∈ cell
    · rw [if_pos hk]
      simp only [Option.isSome_some, true_iff]
      exact ⟨cell, List.mem_cons_self _ _, hk⟩
    · rw [if_neg hk]
      constructor
      · intro hsome
        rcases hoz : cellIndex rest k with _ | n
        · rw [hoz] at hsome; simp at hsome
        · rcases ih.mp (by rw [hoz]; rfl) with ⟨c, hc, hkc⟩
          exact ⟨c, List.mem_cons_of_mem _ hc, hkc⟩
      · rintro ⟨c, hc, hkc⟩
        rcases List.mem_cons.mp hc with rfl | hc
        · exact absurd hkc hk
        · have hr := ih.mpr ⟨c, hc, hkc⟩
          rcases hoz : cellIndex rest k with _ | n
          · rw [hoz] at hr; simp at hr
          · rfl

theorem cellIndex_eq_iff {P : List (List ℕ)} (hd : PDisj P) {k1 k2 : ℕ} :
    (cellIndex P k1 = cellIndex P k2 ∧ (cellIndex P k1).isSome = true) ↔
      SameCell P k1 k2 := by
  induction P with
  | nil => simp [cellIndex, SameCell]
  | cons cell rest ih =>
    have hdr : PDisj rest := (List.pairwise_cons.mp hd).2
    have hdc : ∀ d ∈ rest, ∀ x, x ∈ cell → x ∈ d → False := (List.pairwise_cons.mp hd).1
    constructor
    · rintro ⟨heq, hsome⟩
      simp only [cellIndex] at heq hsome
      by_cases h1 : k1 ∈ cell
      · by_cases h2 : k2 ∈ cell
        · exact ⟨cell, List.mem_cons_self _ _, h1, h2⟩
        · rw [if_pos h1, if_neg h2] at heq
          rcases hoz : cellIndex rest k2 with _ | n
          · rw [hoz] at heq; simp at heq
          · rw [hoz] at heq; simp at heq
      · by_cases h2 : k2 ∈ cell
        · rw [if_neg h1, if_pos h2] at heq
          rcases hoz : cellIndex rest k1 with _ | n
          · rw [hoz] at heq; simp at heq
          · rw [hoz] at heq; simp at heq
        · rw [if_neg h1, if_neg h2] at heq
          rw [if_neg h1] at hsome
          have hsome' : (cellIndex rest k1).isSome = true := by
            rcases hoz : cellIndex rest k1 with _ | n
            · rw [hoz] at hsome; simp at hsome
            · rfl
          have heq' : cellIndex rest k1 = cellIndex rest k2 := by
            rcases hoz1 : cellIndex rest k1 with _ | n1
            · rw [hoz1] at hsome'; simp at hsome'
            · rcases hoz2 : cellIndex rest k2 with _ | n2
              · rw [hoz1, hoz2] at heq; simp at heq
              · rw [hoz1, hoz2] at heq
                simp at heq
                rw [heq]
          rcases (ih hdr).mp ⟨heq', hsome'⟩ with ⟨c, hc, hk1, hk2⟩
          exact ⟨c, List.mem_cons_of_mem _ hc, hk1, hk2⟩
    · rintro ⟨c, hc, hk1, hk2⟩
      rcases List.mem_cons.mp hc with rfl | hc
      · simp only [cellIndex]
        rw [if_pos hk1, if_pos hk2]
        exact ⟨rfl, rfl⟩
      · have h1 : k1 ∉ cell := fun hx => hdc c hc k1 hx hk1
        have h2 : k2 ∉ cell := fun hx => hdc c hc k2 hx hk2
        have hrec := (ih hdr).mpr ⟨c, hc, hk1, hk2⟩
        simp only [cellIndex]
        rw [if_neg h1, if_neg h2]
        refine ⟨by rw [hrec.1], ?_⟩
        rcases hoz : cellIndex rest k1 with _ | n
        · rw [hoz] at hrec; simp at hrec
        · rfl

/-! ## The working dataframe -/

theorem columnOf_nodup (df : List Record) : (columnOf df).Nodup :=
  map_dedupByKey_nodup _ _

theorem filterMap_wrow_keys_sublist : ∀ df : List Record,
    List.Sublist
      ((df.filterMap fun r => r.label.map fun l => WRow.mk r.key l).map WRow.key)
      (df.map Record.key) := by
  intro df
  induction df with
  | nil => simp
  | cons r rest ih =>
    cases hl : r.label with
    | none =>
      simp only [List.filterMap_cons, hl, Option.map_none', List.map_cons]
      exact ih.cons _
    | some l =>
      simp only [List.filterMap_cons, hl, Option.map_some', List.map_cons]
      exact ih.cons₂ _

theorem workingOf_keys_nodup {df : List Record} (hkeys : (df.map Record.key).Nodup) :
    ((workingOf df).map WRow.key).Nodup := by
  have h1 : List.Sublist ((workingOf df).map WRow.key)
      ((df.filterMap fun r => r.label.map fun l => WRow.mk r.key l).map WRow.key) :=
    (dedupByKey_sublist _ _).map _
  exact List.Nodup.sublist (h1.trans (filterMap_wrow_keys_sublist df)) hkeys

theorem label_mem_columnOf {df : List Record} {r : Record} {l : String}
    (hr : r ∈ df) (hl : r.label = some l) : l ∈ columnOf df := by
  rw [columnOf, workingOf, mem_map_dedupByKey]
  refine List.mem_map.mpr ⟨WRow.mk r.key l, ?_, rfl⟩
  exact List.mem_filterMap.mpr ⟨r, hr, by rw [hl]; rfl⟩

theorem mem_columnOf_exists {df : List Record} {l : String} (h : l ∈ columnOf df) :
    ∃ w ∈ workingOf df, w.label = l := by
  rcases List.mem_map.mp h with ⟨w, hw, he⟩
  exact ⟨w, hw, he⟩

theorem working_label_mem_columnOf {df : List Record} {w : WRow}
    (h : w ∈ workingOf df) : w.label ∈ columnOf df :=
  List.mem_map.mpr ⟨w, h, rfl⟩

theorem working_label_inj {df : List Record} {w1 w2 : WRow}
    (h1 : w1 ∈ workingOf df) (h2 : w2 ∈ workingOf df) (he : w1.label = w2.label) :
    w1 = w2 :=
  List.inj_on_of_nodup_map (map_dedupByKey_nodup _ _) h1 h2 he

theorem working_key_inj {df : List Record} (hkeys : (df.map Record.key).Nodup)
    {w1 w2 : WRow} (h1 : w1 ∈ workingOf df) (h2 : w2 ∈ workingOf df)
    (he : w1.key = w2.key) : w1 = w2 :=
  List.inj_on_of_nodup_map (workingOf_keys_nodup hkeys) h1 h2 he

/-! ## Destructuring a successful `create_matched_dataframe` -/

theorem create_ok_elim {α : Type} {mapping : α → Option SimFun} {algos : List α}
    {t : ℚ} {df : List Record} {clustered : List CRow}
    (h : create_matched_dataframe mapping algos t df = .ok clustered) :
    computeSimilarityMatrix mapping algos t (columnOf df) = .ok (qsOf mapping algos t df) ∧
      qsOf mapping algos t df ≠ [] ∧
      clustered = clusteredRowsOf (workingOf df) (qsOf mapping algos t df) := by
  unfold create_matched_dataframe at h
  rcases hc : computeSimilarityMatrix mapping algos t (columnOf df) with e | qs
  · rw [hc] at h
    exact absurd h (by simp)
  · rw [hc] at h
    have h2 : (if qs.isEmpty = true then (Except.error noMatchMsg : Except String (List CRow))
        else .ok (clusteredRowsOf (workingOf df) qs)) = .ok clustered := h
    have hqs : qsOf mapping algos t df = qs := by
      unfold qsOf
      rw [hc]
    cases hq : qs.isEmpty with
    | true => rw [hq] at h2; simp at h2
    | false =>
      rw [hq] at h2
      simp only [Bool.false_eq_true, if_false] at h2
      injection h2 with h'
      refine ⟨by rw [hqs], ?_, by rw [hqs]; exact h'.symm⟩
      rw [hqs]
      intro hnil
      rw [hnil] at hq
      simp at hq

theorem computeSimilarityMatrix_ok_elim {α : Type} {mapping : α → Option SimFun}
    {algos : List α} {t : ℚ} {column : List String} {qs : List ScoredPair}
    (hok : computeSimilarityMatrix mapping algos t column = .ok qs) :
    qs = ((pairCombinations (dedupKeepFirst column)).map fun p =>
        ScoredPair.mk p.1 p.2 (simScore (fnsOf mapping algos) p.1 p.2)).filter
      fun sp => t ≤ sp.score := by
  unfold computeSimilarityMatrix at hok
  dsimp only [] at hok
  split at hok
  · exact absurd hok (by simp)
  · split at hok
    · exact absurd hok (by simp)
    · split at hok
      · exact absurd hok (by simp)
      · injection hok with h
        rw [← h]
        rfl

theorem qs_labels_spec {α : Type} {mapping : α → Option SimFun}
    {algos : List α} {t : ℚ} {column : List String} {qs : List ScoredPair}
    (hok : computeSimilarityMatrix mapping algos t column = .ok qs) :
    ∀ sp ∈ qs, sp.label1 ∈ column ∧ sp.label2 ∈ column ∧ sp.label1 ≠ sp.label2 ∧
      sp.score = simScore (fnsOf mapping algos) sp.label1 sp.label2 ∧ t ≤ sp.score := by
  intro sp hsp
  rw [computeSimilarityMatrix_ok_elim hok] at hsp
  rcases List.mem_filter.mp hsp with ⟨hm, hts⟩
  rcases List.mem_map.mp hm with ⟨p, hp, he⟩
  subst he
  simp only [decide_eq_true_eq] at hts
  rcases mem_pairCombinations_mem hp with ⟨h1, h2⟩
  exact ⟨mem_dedupKeepFirst.mp h1, mem_dedupKeepFirst.mp h2,
    mem_pairCombinations_ne (dedupKeepFirst_nodup column) hp, rfl, hts⟩

/-! ## The rows of a successful match -/

theorem matchedLabels_getD {qs : List ScoredPair} {i : ℕ} (hi : i < qs.length) :
    (qs.map fun sp => [sp.label1, sp.label2]).getD i [] =
      [(qs.get ⟨i, hi⟩).label1, (qs.get ⟨i, hi⟩).label2] := by
  have hi2 : i < (qs.map fun sp => [sp.label1, sp.label2]).length := by
    rw [List.length_map]; exact hi
  rw [List.getD_eq_getElem?_getD, List.getElem?_eq_getElem hi2]
  simp only [Option.getD_some, List.getElem_map]
  rfl

theorem mem_flattened_iff {qs : List ScoredPair} {l : String} :
    l ∈ (qs.map fun sp => [sp.label1, sp.label2]).flatten ↔
      ∃ sp ∈ qs, l = sp.label1 ∨ l = sp.label2 := by
  rw [List.mem_flatten]
  constructor
  · rintro ⟨pl, hpl, hl⟩
    rcases List.mem_map.mp hpl with ⟨sp, hsp, rfl⟩
    rcases List.mem_cons.mp hl with h | h
    · exact ⟨sp, hsp, Or.inl h⟩
    · rcases List.mem_cons.mp h with h2 | h2
      · exact ⟨sp, hsp, Or.inr h2⟩
      · simp at h2
  · rintro ⟨sp, hsp, h | h⟩
    · exact ⟨[sp.label1, sp.label2], List.mem_map.mpr ⟨sp, hsp, rfl⟩,
        h ▸ List.mem_cons_self _ _⟩
    · exact ⟨[sp.label1, sp.label2], List.mem_map.mpr ⟨sp, hsp, rfl⟩, by
        rw [h]; exact List.mem_cons_of_mem _ (List.mem_cons_self _ _)⟩

theorem mem_clusteredRowsOf {working : List WRow} {qs : List ScoredPair} {c : CRow} :
    c ∈ clusteredRowsOf working qs ↔
      (∃ w ∈ working, (∀ sp ∈ qs, w.label ≠ sp.label1 ∧ w.label ≠ sp.label2) ∧
        c = CRow.mk w.key w.label (RandomId.rowId w.key)) ∨
      (∃ i, ∃ hi : i < qs.length, ∃ w ∈ working,
        (w.label = (qs.get ⟨i, hi⟩).label1 ∨ w.label = (qs.get ⟨i, hi⟩).label2) ∧
        c = CRow.mk w.key w.label (RandomId.pairId i)) := by
  rw [clusteredRowsOf]
  simp only [List.mem_append, List.mem_map, List.mem_filter, List.mem_flatMap,
    List.mem_range, List.length_map]
  constructor
  · rintro (⟨w, ⟨hw, hnm⟩, rfl⟩ | ⟨i, hi, w, ⟨hw, hmem⟩, rfl⟩)
    · refine Or.inl ⟨w, hw, ?_, rfl⟩
      intro sp hsp
      simp only [decide_eq_true_eq] at hnm
      rw [mem_flattened_iff] at hnm
      push_neg at hnm
      exact hnm sp hsp
    · refine Or.inr ⟨i, hi, w, hw, ?_, rfl⟩
      rw [matchedLabels_getD hi] at hmem
      simp only [decide_eq_true_eq] at hmem
      rcases List.mem_cons.mp hmem with h | h
      · exact Or.inl h
      · rcases List.mem_cons.mp h with h2 | h2
        · exact Or.inr h2
        · simp at h2
  · rintro (⟨w, hw, hnm, rfl⟩ | ⟨i, hi, w, hw, hor, rfl⟩)
    · refine Or.inl ⟨w, ⟨hw, ?_⟩, rfl⟩
      simp only [decide_eq_true_eq]
      rw [mem_flattened_iff]
      push_neg
      exact hnm
    · refine Or.inr ⟨i, hi, w, ⟨hw, ?_⟩, rfl⟩
      rw [matchedLabels_getD hi]
      simp only [decide_eq_true_eq]
      rcases hor with h | h
      · rw [h]; exact List.mem_cons_self _ _
      · rw [h]; exact List.mem_cons_of_mem _ (List.mem_cons_self _ _)

theorem clusteredRows_from_working {working : List WRow} {qs : List ScoredPair}
    {c : CRow} (hc : c ∈ clusteredRowsOf working qs) :
    ∃ w ∈ working, c.key = w.key ∧ c.label = w.label := by
  rcases mem_clusteredRowsOf.mp hc with ⟨w, hw, _, rfl⟩ | ⟨_, _, w, hw, _, rfl⟩ <;>
    exact ⟨w, hw, rfl, rfl⟩

theorem clusteredRows_rowId {working : List WRow} {qs : List ScoredPair}
    {c : CRow} (hc : c ∈ clusteredRowsOf working qs) {k : ℕ}
    (he : c.cid = RandomId.rowId k) :
    c.key = k ∧ ∃ w ∈ working, c.label = w.label ∧ c.key = w.key ∧
      (∀ sp ∈ qs, w.label ≠ sp.label1 ∧ w.label ≠ sp.label2) := by
  rcases mem_clusteredRowsOf.mp hc with ⟨w, hw, hnm, rfl⟩ | ⟨i, hi, w, hw, hor, rfl⟩
  · simp only [RandomId.rowId.injEq] at he
    exact ⟨he, w, hw, rfl, rfl, hnm⟩
  · simp at he

theorem clusteredRows_pairId {working : List WRow} {qs : List ScoredPair}
    {c : CRow} (hc : c ∈ clusteredRowsOf working qs) {i : ℕ}
    (he : c.cid = RandomId.pairId i) :
    ∃ hi : i < qs.length, ∃ w ∈ working, c.key = w.key ∧ c.label = w.label ∧
      (w.label = (qs.get ⟨i, hi⟩).label1 ∨ w.label = (qs.get ⟨i, hi⟩).label2) := by
  rcases mem_clusteredRowsOf.mp hc with ⟨w, hw, hnm, rfl⟩ | ⟨j, hj, w, hw, hor, rfl⟩
  · simp at he
  · simp only [RandomId.pairId.injEq] at he
    subst he
    exact ⟨hj, w, hw, rfl, rfl, hor⟩

theorem working_mem_clusteredRows {working : List WRow} (qs : List ScoredPair)
    (w : WRow) (hw : w ∈ working) :
    ∃ c ∈ clusteredRowsOf working qs, c.key = w.key ∧ c.label = w.label := by
  by_cases hmatch : ∃ sp ∈ qs, w.label = sp.label1 ∨ w.label = sp.label2
  · rcases hmatch with ⟨sp, hsp, hor⟩
    rcases List.mem_iff_get.mp hsp with ⟨⟨i, hi⟩, he⟩
    refine ⟨CRow.mk w.key w.label (RandomId.pairId i),
      mem_clusteredRowsOf.mpr (Or.inr ⟨i, hi, w, hw, ?_, rfl⟩), rfl, rfl⟩
    rw [he]
    exact hor
  · push_neg at hmatch
    exact ⟨CRow.mk w.key w.label (RandomId.rowId w.key),
      mem_clusteredRowsOf.mpr (Or.inl ⟨w, hw, hmatch, rfl⟩), rfl, rfl⟩

/-! ## Groups of a successful match -/

theorem key_mem_own_group {clustered : List CRow} {c : CRow} (h : c ∈ clustered) :
    c.key ∈ groupKeys clustered c.cid := by
  rw [groupKeys]
  exact List.mem_map.mpr ⟨c, List.mem_filter.mpr ⟨h, by simp⟩, rfl⟩

theorem mem_groupKeys {clustered : List CRow} {id : RandomId} {k : ℕ} :
    k ∈ groupKeys clustered id ↔ ∃ c ∈ clustered, c.cid = id ∧ c.key = k := by
  rw [groupKeys]
  constructor
  · intro h
    rcases List.mem_map.mp h with ⟨c, hc, rfl⟩
    rcases List.mem_filter.mp hc with ⟨hcm, hcid⟩
    simp only [decide_eq_true_eq] at hcid
    exact ⟨c, hcm, hcid, rfl⟩
  · rintro ⟨c, hc, hcid, rfl⟩
    exact List.mem_map.mpr ⟨c, List.mem_filter.mpr ⟨hc, by simp [hcid]⟩, rfl⟩

theorem mem_rowGroupsOf {clustered : List CRow} {g : List ℕ} :
    g ∈ rowGroupsOf clustered ↔ ∃ c ∈ clustered, g = groupKeys clustered c.cid := by
  rw [rowGroupsOf]
  constructor
  · intro h
    rcases List.mem_map.mp h with ⟨c, hc, rfl⟩
    exact ⟨c, hc, rfl⟩
  · rintro ⟨c, hc, rfl⟩
    exact List.mem_map.mpr ⟨c, hc, rfl⟩

theorem groupKeys_pairId {working : List WRow} {qs : List ScoredPair} {i : ℕ}
    (hi : i < qs.length) {k : ℕ} :
    k ∈ groupKeys (clusteredRowsOf working qs) (RandomId.pairId i) ↔
      ∃ w ∈ working, w.key = k ∧
        (w.label = (qs.get ⟨i, hi⟩).label1 ∨ w.label = (qs.get ⟨i, hi⟩).label2) := by
  rw [mem_groupKeys]
  constructor
  · rintro ⟨c, hc, hcid, rfl⟩
    rcases clusteredRows_pairId hc hcid with ⟨hi2, w, hw, hkey, _, hor⟩
    exact ⟨w, hw, hkey.symm, hor⟩
  · rintro ⟨w, hw, rfl, hor⟩
    exact ⟨CRow.mk w.key w.label (RandomId.pairId i),
      mem_clusteredRowsOf.mpr (Or.inr ⟨i, hi, w, hw, hor, rfl⟩), rfl, rfl⟩

theorem groupKeys_rowId {working : List WRow} {qs : List ScoredPair} {k x : ℕ}
    (h : x ∈ groupKeys (clusteredRowsOf working qs) (RandomId.rowId k)) : x = k := by
  rcases mem_groupKeys.mp h with ⟨c, hc, hcid, rfl⟩
  exact (clusteredRows_rowId hc hcid).1

/-! ## Row connectivity against label connectivity -/

theorem connStep_to_labelRel {working : List WRow} {qs : List ScoredPair} {x y : ℕ}
    (h : ConnStep (rowGroupsOf (clusteredRowsOf working qs)) x y) :
    ∃ w1 ∈ working, ∃ w2 ∈ working, w1.key = x ∧ w2.key = y ∧
      LabelRel qs (working.map WRow.label) w1.label w2.label := by
  rcases h with ⟨g, hg, hx, hy⟩
  rcases mem_rowGroupsOf.mp hg with ⟨c, hc, rfl⟩
  rcases hcid : c.cid with i | k
  · rcases clusteredRows_pairId hc hcid with ⟨hi, _, _, _, _, _⟩
    rw [hcid] at hx hy
    rcases (groupKeys_pairId hi).mp hx with ⟨w1, hw1, hk1, hor1⟩
    rcases (groupKeys_pairId hi).mp hy with ⟨w2, hw2, hk2, hor2⟩
    refine ⟨w1, hw1, w2, hw2, hk1, hk2, ?_⟩
    by_cases heq : w1.label = w2.label
    · exact Or.inr ⟨heq, List.mem_map.mpr ⟨w1, hw1, rfl⟩⟩
    · refine Or.inl ⟨qs.get ⟨i, hi⟩, List.get_mem qs i hi, ?_⟩
      rcases hor1 with h1 | h1 <;> rcases hor2 with h2 | h2
      · exact absurd (h1.trans h2.symm) heq
      · exact Or.inl ⟨h1.symm, h2.symm⟩
      · exact Or.inr ⟨h2.symm, h1.symm⟩
      · exact absurd (h1.trans h2.symm) heq
  · rw [hcid] at hx hy
    have hx' : x = k := groupKeys_rowId hx
    have hy' : y = k := groupKeys_rowId hy
    rcases clusteredRows_rowId hc hcid with ⟨hck, w, hw, _, hckey, _⟩
    refine ⟨w, hw, w, hw, ?_, ?_, Or.inr ⟨rfl, List.mem_map.mpr ⟨w, hw, rfl⟩⟩⟩
    · rw [← hckey, hck, hx']
    · rw [← hckey, hck, hy']

theorem labelRel_to_connStep {working : List WRow} {qs : List ScoredPair}
    (hlnd : (working.map WRow.label).Nodup)
    {w1 w2 : WRow} (hw1 : w1 ∈ working) (hw2 : w2 ∈ working)
    (h : LabelRel qs (working.map WRow.label) w1.label w2.label) :
    ConnStep (rowGroupsOf (clusteredRowsOf working qs)) w1.key w2.key := by
  rcases h with ⟨sp, hsp, hor⟩ | ⟨heq, _⟩
  · rcases List.mem_iff_get.mp hsp with ⟨⟨i, hi⟩, he⟩
    have hor1 : w1.label = (qs.get ⟨i, hi⟩).label1 ∨
        w1.label = (qs.get ⟨i, hi⟩).label2 := by
      rw [he]
      rcases hor with ⟨ha, _⟩ | ⟨_, hb⟩
      · exact Or.inl ha.symm
      · exact Or.inr hb.symm
    have hor2 : w2.label = (qs.get ⟨i, hi⟩).label1 ∨
        w2.label = (qs.get ⟨i, hi⟩).label2 := by
      rw [he]
      rcases hor with ⟨_, hb⟩ | ⟨ha, _⟩
      · exact Or.inr hb.symm
      · exact Or.inl ha.symm
    have hc1 : CRow.mk w1.key w1.label (RandomId.pairId i) ∈ clusteredRowsOf working qs :=
      mem_clusteredRowsOf.mpr (Or.inr ⟨i, hi, w1, hw1, hor1, rfl⟩)
    refine ⟨groupKeys (clusteredRowsOf working qs) (RandomId.pairId i),
      mem_rowGroupsOf.mpr ⟨_, hc1, rfl⟩,
      (groupKeys_pairId hi).mpr ⟨w1, hw1, rfl, hor1⟩,
      (groupKeys_pairId hi).mpr ⟨w2, hw2, rfl, hor2⟩⟩
  · have he12 : w1 = w2 := List.inj_on_of_nodup_map hlnd hw1 hw2 heq
    subst he12
    rcases working_mem_clusteredRows qs w1 hw1 with ⟨c, hc, hck, _⟩
    refine ⟨groupKeys (clusteredRowsOf working qs) c.cid,
      mem_rowGroupsOf.mpr ⟨c, hc, rfl⟩, ?_, ?_⟩ <;>
    · rw [← hck]
      exact key_mem_own_group hc

theorem conn_to_labelConn {working : List WRow} {qs : List ScoredPair}
    (hknd : (working.map WRow.key).Nodup) {x y : ℕ}
    (h : Conn (rowGroupsOf (clusteredRowsOf working qs)) x y) :
    ∀ w1 ∈ working, w1.key = x → ∀ w2 ∈ working, w2.key = y →
      LabelConn qs (working.map WRow.label) w1.label w2.label := by
  induction h with
  | single hs =>
    intro w1 hw1 hx1 w2 hw2 hy2
    rcases connStep_to_labelRel hs with ⟨u1, hu1, u2, hu2, hk1, hk2, hrel⟩
    have e1 : u1 = w1 := List.inj_on_of_nodup_map hknd hu1 hw1 (hk1.trans hx1.symm)
    have e2 : u2 = w2 := List.inj_on_of_nodup_map hknd hu2 hw2 (hk2.trans hy2.symm)
    subst e1; subst e2
    exact Relation.TransGen.single hrel
  | tail hconn hstep ih =>
    intro w1 hw1 hx1 w2 hw2 hy2
    rcases connStep_to_labelRel hstep with ⟨u1, hu1, u2, hu2, hk1, hk2, hrel⟩
    have e2 : u2 = w2 := List.inj_on_of_nodup_map hknd hu2 hw2 (hk2.trans hy2.symm)
    subst e2
    exact (ih w1 hw1 hx1 u1 hu1 hk1).tail hrel

theorem labelConn_to_conn {working : List WRow} {qs : List ScoredPair}
    (hlnd : (working.map WRow.label).Nodup)
    (hql : ∀ sp ∈ qs, sp.label1 ∈ working.map WRow.label ∧
      sp.label2 ∈ working.map WRow.label)
    {l1 l2 : String} (h : LabelConn qs (working.map WRow.label) l1 l2) :
    ∀ w1 ∈ working, w1.label = l1 → ∀ w2 ∈ working, w2.label = l2 →
      Conn (rowGroupsOf (clusteredRowsOf working qs)) w1.key w2.key := by
  induction h with
  | single hr =>
    intro w1 hw1 he1 w2 hw2 he2
    refine Relation.TransGen.single (labelRel_to_connStep hlnd hw1 hw2 ?_)
    rw [he1, he2]
    exact hr
  | @tail lb lc hconn hstep ih =>
    intro w1 hw1 he1 w2 hw2 he2
    have hbmem : lb ∈ working.map WRow.label := by
      rcases hstep with ⟨sp, hsp, hor⟩ | ⟨heq, hmem⟩
      · rcases hor with ⟨ha, _⟩ | ⟨_, hb⟩
        · exact ha ▸ (hql sp hsp).1
        · exact hb ▸ (hql sp hsp).2
      · exact hmem
    rcases List.mem_map.mp hbmem with ⟨wb, hwb, hwbl⟩
    refine (ih w1 hw1 he1 wb hwb hwbl).tail (labelRel_to_connStep hlnd hwb hw2 ?_)
    rw [hwbl, he2]
    exact hstep

/-! ## Label-to-cluster assignment -/

theorem key_sameCell_self {working : List WRow} {qs : List ScoredPair}
    {w : WRow} (hw : w ∈ working) :
    ∃ cell ∈ partitionOf (clusteredRowsOf working qs), w.key ∈ cell := by
  rcases working_mem_clusteredRows qs w hw with ⟨c, hc, hck, _⟩
  have hstep : ConnStep (rowGroupsOf (clusteredRowsOf working qs)) w.key w.key := by
    refine ⟨groupKeys (clusteredRowsOf working qs) c.cid,
      mem_rowGroupsOf.mpr ⟨c, hc, rfl⟩, ?_, ?_⟩ <;>
    · rw [← hck]
      exact key_mem_own_group hc
  rcases (sameCell_buildPartition_iff_conn _ _ _).mpr
    (Relation.TransGen.single hstep) with ⟨cell, hcell, hkc, _⟩
  exact ⟨cell, hcell, hkc⟩

theorem labelToCluster_spec {working : List WRow} (qs : List ScoredPair)
    (hlnd : (working.map WRow.label).Nodup)
    {l : String} (hl : l ∈ working.map WRow.label) :
    ∃ w ∈ working, w.label = l ∧
      labelToCluster (clusteredRowsOf working qs) l =
        keyToCluster (clusteredRowsOf working qs) w.key ∧
      (keyToCluster (clusteredRowsOf working qs) w.key).isSome = true := by
  rcases List.mem_map.mp hl with ⟨w, hw, rfl⟩
  have hfind : ((clusteredRowsOf working qs).reverse.find? fun r =>
      r.label = w.label).isSome := by
    rw [List.find?_isSome]
    rcases working_mem_clusteredRows qs w hw with ⟨c, hc, _, hcl⟩
    exact ⟨c, List.mem_reverse.mpr hc, by simp [hcl]⟩
  rcases Option.isSome_iff_exists.mp hfind with ⟨c, hcfind⟩
  have hcmem : c ∈ clusteredRowsOf working qs :=
    List.mem_reverse.mp (List.mem_of_find?_eq_some hcfind)
  have hclab : c.label = w.label := by
    have := List.find?_some hcfind
    simpa using this
  rcases clusteredRows_from_working hcmem with ⟨w2, hw2, hck2, hcl2⟩
  have he : w2 = w := List.inj_on_of_nodup_map hlnd hw2 hw (by rw [← hcl2]; exact hclab)
  subst he
  refine ⟨w2, hw2, rfl, ?_, ?_⟩
  · rw [labelToCluster, hcfind, Option.some_bind, hck2]
  · rw [keyToCluster, cellIndex_isSome_iff]
    exact key_sameCell_self hw2

theorem labelToCluster_isSome {working : List WRow} (qs : List ScoredPair)
    (hlnd : (working.map WRow.label).Nodup)
    {l : String} (hl : l ∈ working.map WRow.label) :
    (labelToCluster (clusteredRowsOf working qs) l).isSome = true := by
  rcases labelToCluster_spec qs hlnd hl with ⟨w, _, _, heq, hsome⟩
  rw [heq]
  exact hsome

theorem labelToCluster_eq_iff_labelConn {working : List WRow} {qs : List ScoredPair}
    (hlnd : (working.map WRow.label).Nodup) (hknd : (working.map WRow.key).Nodup)
    (hql : ∀ sp ∈ qs, sp.label1 ∈ working.map WRow.label ∧
      sp.label2 ∈ working.map WRow.label)
    {l1 l2 : String} (hl1 : l1 ∈ working.map WRow.label)
    (hl2 : l2 ∈ working.map WRow.label) :
    (labelToCluster (clusteredRowsOf working qs) l1 =
        labelToCluster (clusteredRowsOf working qs) l2 ↔
      LabelConn qs (working.map WRow.label) l1 l2) := by
  rcases labelToCluster_spec qs hlnd hl1 with ⟨w1, hw1, he1, heq1, hsome1⟩
  rcases labelToCluster_spec qs hlnd hl2 with ⟨w2, hw2, he2, heq2, hsome2⟩
  subst he1
  subst he2
  rw [heq1, heq2]
  have hdisj : PDisj (partitionOf (clusteredRowsOf working qs)) :=
    buildPartition_disj _
  constructor
  · intro heq
    have hsc : SameCell (partitionOf (clusteredRowsOf working qs)) w1.key w2.key :=
      (cellIndex_eq_iff hdisj).mp ⟨heq, hsome1⟩
    have hconn := (sameCell_buildPartition_iff_conn _ _ _).mp hsc
    exact conn_to_labelConn hknd hconn w1 hw1 rfl w2 hw2 rfl
  · intro hlc
    have hconn := labelConn_to_conn hlnd hql hlc w1 hw1 rfl w2 hw2 rfl
    have hsc := (sameCell_buildPartition_iff_conn _ _ _).mpr hconn
    exact ((cellIndex_eq_iff hdisj).mpr hsc).1

/-! ## The annotated output of `process_clusters` -/

theorem process_clusters_eq_map (clustered : List CRow) (main : List Record) :
    process_clusters clustered main = main.map fun r =>
      ORecord.mk r.key r.label (r.label.bind fun l => labelToCluster clustered l)
        ((r.label.bind fun l => labelToCluster clustered l).map fun cv =>
          (main.filter fun r2 =>
            (r2.label.bind fun l => labelToCluster clustered l) = some cv).length) := by
  unfold process_clusters
  rw [List.map_map]
  apply List.map_congr_left
  intro r hr
  simp only [Function.comp]
  congr 1
  rcases hb : r.label.bind fun l => labelToCluster clustered l with _ | cv
  · rfl
  · simp only [Option.map_some']
    congr 1
    rw [List.filter_map]
    rw [List.length_map]
    rfl

theorem runPipeline_ok_elim {α : Type} {mapping : α → Option SimFun} {algos : List α}
    {t : ℚ} {df : List Record} {out : List ORecord}
    (h : runPipeline mapping algos t df = .ok out) :
    create_matched_dataframe mapping algos t df =
        .ok (clusteredRowsOf (workingOf df) (qsOf mapping algos t df)) ∧
      out = process_clusters (clusteredRowsOf (workingOf df) (qsOf mapping algos t df)) df := by
  unfold runPipeline at h
  rcases hc : create_matched_dataframe mapping algos t df with e | clustered
  · rw [hc] at h
    exact absurd h (by simp [Except.map])
  · rw [hc] at h
    have h2 : Except.ok (process_clusters clustered df) = Except.ok out := h
    injection h2 with h2
    rcases create_ok_elim hc with ⟨_, _, hcl⟩
    subst hcl
    exact ⟨rfl, h2.symm⟩

theorem columnOf_eq (df : List Record) :
    columnOf df = (workingOf df).map WRow.label := rfl

/-- C3: two annotated records carrying non-null labels share one (non-null)
cluster id exactly when their labels are joined by a chain of qualifying
pairs (or of shared labels): the clusters are the connected components of
the qualifying-pair graph.  In particular a chain A-B, B-C puts all records
labelled A, B or C in one cluster even when score(A,C) misses the
threshold. -/
theorem process_clusters_transitive_closure {α : Type} (mapping : α → Option SimFun)
    (algos : List α) (t : ℚ) (df : List Record) (out : List ORecord)
    (hkeys : (df.map Record.key).Nodup)
    (hok : runPipeline mapping algos t df = .ok out)
    (r1 r2 : ORecord) (h1 : r1 ∈ out) (h2 : r2 ∈ out)
    (l1 l2 : String) (hl1 : r1.label = some l1) (hl2 : r2.label = some l2) :
    ((r1.clusterId = r2.clusterId ∧ r1.clusterId.isSome = true) ↔
      LabelConn (qsOf mapping algos t df) (columnOf df) l1 l2) := by
  rcases runPipeline_ok_elim hok with ⟨hcreate, hout⟩
  rcases create_ok_elim hcreate with ⟨hcompute, hqsne, _⟩
  subst hout
  rw [process_clusters_eq_map] at h1 h2
  rcases List.mem_map.mp h1 with ⟨rec1, hrec1, he1⟩
  rcases List.mem_map.mp h2 with ⟨rec2, hrec2, he2⟩
  subst he1
  subst he2
  dsimp only [] at hl1 hl2 ⊢
  rw [hl1, hl2]
  simp only [Option.some_bind]
  have hc1 : l1 ∈ columnOf df := label_mem_columnOf hrec1 hl1
  have hc2 : l2 ∈ columnOf df := label_mem_columnOf hrec2 hl2
  have hlnd : ((workingOf df).map WRow.label).Nodup := columnOf_nodup df
  have hknd := workingOf_keys_nodup hkeys
  have hql : ∀ sp ∈ qsOf mapping algos t df,
      sp.label1 ∈ (workingOf df).map WRow.label ∧
      sp.label2 ∈ (workingOf df).map WRow.label := by
    intro sp hsp
    rcases qs_labels_spec hcompute sp hsp with ⟨ha, hb, _⟩
    exact ⟨ha, hb⟩
  have hiff := labelToCluster_eq_iff_labelConn hlnd hknd hql hc1 hc2
  have hs1 : (labelToCluster (clusteredRowsOf (workingOf df) (qsOf mapping algos t df))
      l1).isSome = true := labelToCluster_isSome _ hlnd hc1
  constructor
  · rintro ⟨heq, _⟩
    exact hiff.mp heq
  · intro hlc
    exact ⟨hiff.mpr hlc, hs1⟩

theorem filterMap_length_of_isSome {l : List ORecord}
    (h : ∀ r ∈ l, (ORecord.clusterId r).isSome = true) :
    (l.filterMap ORecord.clusterId).length = l.length := by
  induction l with
  | nil => rfl
  | cons r rest ih =>
    rw [List.filterMap_cons]
    rcases ho : r.clusterId with _ | c
    · have := h r (List.mem_cons_self _ _)
      rw [ho] at this
      simp at this
    · rw [List.length_cons, ih fun r2 h2 => h r2 (List.mem_cons_of_mem _ h2),
        List.length_cons]

/-- The `_cluster_size` column counts the output rows sharing the row's
`_cluster_id` (NaN rows keep NaN). -/
theorem process_clusters_size_spec (clustered : List CRow) (main : List Record) :
    ∀ r ∈ process_clusters clustered main, r.clusterSize = r.clusterId.map fun cv =>
      ((process_clusters clustered main).filter fun r2 => r2.clusterId = some cv).length := by
  intro r hr
  rw [process_clusters_eq_map] at hr ⊢
  rcases List.mem_map.mp hr with ⟨rec, hrec, he⟩
  subst he
  dsimp only []
  congr 1
  funext cv
  rw [List.filter_map, List.length_map]
  rfl

/-- C1 (amended): on an input whose records all carry non-null labels, a
successful run annotates every record with exactly one non-null cluster
id, drops and duplicates nothing, the reported cluster size counts the
records sharing the id, and the sizes of the distinct clusters sum to n.
(For records with missing labels the code instead produces a null cluster
id and size, and several empty-labelled records share one cluster: see the
counterexample.) -/
theorem cluster_partition_total_amended {α : Type} (mapping : α → Option SimFun)
    (algos : List α) (t : ℚ) (df : List Record) (out : List ORecord)
    (hall : ∀ r ∈ df, r.label.isSome = true)
    (hok : runPipeline mapping algos t df = .ok out) :
    out.map ORecord.key = df.map Record.key ∧
    (∀ r ∈ out, r.clusterId.isSome = true) ∧
    (∀ r ∈ out, r.clusterSize = r.clusterId.map fun cv =>
      (out.filter fun r2 => r2.clusterId = some cv).length) ∧
    (∑ c ∈ (out.filterMap ORecord.clusterId).toFinset,
      (out.filterMap ORecord.clusterId).count c) = df.length := by
  rcases runPipeline_ok_elim hok with ⟨hcreate, hout⟩
  rcases create_ok_elim hcreate with ⟨hcompute, hqsne, _⟩
  have hlnd : ((workingOf df).map WRow.label).Nodup := columnOf_nodup df
  have hsome : ∀ r ∈ out, (ORecord.clusterId r).isSome = true := by
    intro r hr
    rw [hout, process_clusters_eq_map] at hr
    rcases List.mem_map.mp hr with ⟨rec, hrec, he⟩
    subst he
    rcases Option.isSome_iff_exists.mp (hall rec hrec) with ⟨l, hl⟩
    dsimp only []
    rw [hl, Option.some_bind]
    exact labelToCluster_isSome _ hlnd (label_mem_columnOf hrec hl)
  refine ⟨?_, hsome, ?_, ?_⟩
  · rw [hout, process_clusters_eq_map, List.map_map]
    rfl
  · rw [hout]
    exact process_clusters_size_spec _ df
  · have hms : ∑ c ∈ (out.filterMap ORecord.clusterId).toFinset,
        (out.filterMap ORecord.clusterId).count c =
        (out.filterMap ORecord.clusterId).length := by
      simp [Multiset.toFinset_sum_count_eq (↑(out.filterMap ORecord.clusterId) : Multiset ℕ)]
    rw [hms, filterMap_length_of_isSome hsome]
    rw [hout, process_clusters_eq_map, List.length_map]

theorem filterMap_wrow_filter (df : List Record) :
    ((df.filter fun r => r.label.isSome).filterMap fun r =>
      r.label.map fun l => WRow.mk r.key l) =
      df.filterMap fun r => r.label.map fun l => WRow.mk r.key l := by
  induction df with
  | nil => rfl
  | cons r rest ih =>
    rcases hl : r.label with _ | l
    · rw [List.filter_cons, List.filterMap_cons]
      simp only [hl, Option.isSome_none, Option.map_none']
      exact ih
    · rw [List.filter_cons]
      simp only [hl, Option.isSome_some, if_true]
      rw [List.filterMap_cons, List.filterMap_cons]
      simp only [hl, Option.map_some']
      rw [ih]

theorem workingOf_drop_null (df : List Record) :
    workingOf (df.filter fun r => r.label.isSome) = workingOf df := by
  unfold workingOf
  rw [filterMap_wrow_filter]

/-- Dropping the null-labelled records does not change the outcome of the
matching step (they are dropped by `dropna` anyway). -/
theorem create_matched_dataframe_drop_null {α : Type} (mapping : α → Option SimFun)
    (algos : List α) (t : ℚ) (df : List Record) :
    create_matched_dataframe mapping algos t (df.filter fun r => r.label.isSome) =
      create_matched_dataframe mapping algos t df := by
  have hw : workingOf (df.filter fun r => r.label.isSome) = workingOf df :=
    workingOf_drop_null df
  have hc : columnOf (df.filter fun r => r.label.isSome) = columnOf df := by
    rw [columnOf, hw, columnOf]
  unfold create_matched_dataframe
  rw [hc, hw]

theorem labelConn_to_isolated {qs : List ScoredPair} {col : List String}
    (hno : ∀ sp ∈ qs, sp.label1 ≠ "" ∧ sp.label2 ≠ "")
    {l1 l2 : String} (h : LabelConn qs col l1 l2) : l2 = "" → l1 = "" := by
  have hstep : ∀ x y : String, LabelRel qs col x y → y = "" → x = "" := by
    intro x y hr hy
    subst hy
    rcases hr with ⟨sp, hsp, hor⟩ | ⟨heq, _⟩
    · rcases hor with ⟨_, hb⟩ | ⟨ha, _⟩
      · exact absurd hb (hno sp hsp).2
      · exact absurd ha (hno sp hsp).1
    · exact heq
  induction h with
  | single hr => exact hstep _ _ hr
  | tail hconn hr ih => exact fun hy => ih (hstep _ _ hr hy)

/-- C4 (amended): a record with a missing (NaN) label never makes
clustering fail (dropping such records leaves the outcome unchanged) but
it receives a null cluster id and null size rather than a singleton
cluster; an empty-string label is an ordinary label: it takes part in pair
enumeration and can occur in qualifying pairs (see the counterexample),
all records labelled by it share one cluster id, and when no qualifying
pair involves the empty label that cluster consists exactly of the
empty-labelled records, so its size is their count (1 only when it is
unique). -/
theorem empty_label_amended {α : Type} (mapping : α → Option SimFun)
    (algos : List α) (t : ℚ) (df : List Record)
    (hkeys : (df.map Record.key).Nodup) :
    (create_matched_dataframe mapping algos t (df.filter fun r => r.label.isSome) =
      create_matched_dataframe mapping algos t df) ∧
    (∀ out, runPipeline mapping algos t df = .ok out →
      (∀ r ∈ out, r.label = none → r.clusterId = none ∧ r.clusterSize = none) ∧
      (∀ r1 ∈ out, ∀ r2 ∈ out, ∀ l : String, r1.label = some l → r2.label = some l →
        r1.clusterId = r2.clusterId) ∧
      ((∀ sp ∈ qsOf mapping algos t df, sp.label1 ≠ "" ∧ sp.label2 ≠ "") →
        ∀ r ∈ out, r.label = some "" →
          r.clusterSize = some ((df.filter fun r2 => r2.label = some "").length))) := by
  refine ⟨create_matched_dataframe_drop_null mapping algos t df, ?_⟩
  intro out hok
  rcases runPipeline_ok_elim hok with ⟨hcreate, hout⟩
  rcases create_ok_elim hcreate with ⟨hcompute, hqsne, _⟩
  subst hout
  have hlnd : ((workingOf df).map WRow.label).Nodup := columnOf_nodup df
  have hknd := workingOf_keys_nodup hkeys
  have hql : ∀ sp ∈ qsOf mapping algos t df,
      sp.label1 ∈ (workingOf df).map WRow.label ∧
      sp.label2 ∈ (workingOf df).map WRow.label := by
    intro sp hsp
    rcases qs_labels_spec hcompute sp hsp with ⟨ha, hb, _⟩
    exact ⟨ha, hb⟩
  refine ⟨?_, ?_, ?_⟩
  · intro r hr hnull
    rw [process_clusters_eq_map] at hr
    rcases List.mem_map.mp hr with ⟨rec, hrec, he⟩
    subst he
    dsimp only [] at hnull ⊢
    rw [hnull]
    exact ⟨rfl, rfl⟩
  · intro r1 h1 r2 h2 l hl1 hl2
    rw [process_clusters_eq_map] at h1 h2
    rcases List.mem_map.mp h1 with ⟨rec1, hrec1, he1⟩
    rcases List.mem_map.mp h2 with ⟨rec2, hrec2, he2⟩
    subst he1
    subst he2
    dsimp only [] at hl1 hl2 ⊢
    rw [hl1, hl2]
  · intro hno r hr hempty
    rw [process_clusters_eq_map] at hr
    rcases List.mem_map.mp hr with ⟨rec, hrec, he⟩
    subst he
    dsimp only [] at hempty ⊢
    rw [hempty, Option.some_bind]
    have hcol : ("" : String) ∈ columnOf df := label_mem_columnOf hrec hempty
    rcases Option.isSome_iff_exists.mp (labelToCluster_isSome
      (qsOf mapping algos t df) hlnd hcol) with ⟨cv, hcv⟩
    rw [hcv, Option.map_some']
    congr 1
    have hfc : ∀ rec2 ∈ df,
        (decide ((rec2.label.bind fun l => labelToCluster
          (clusteredRowsOf (workingOf df) (qsOf mapping algos t df)) l) = some cv)) =
        decide (rec2.label = some "") := by
      intro rec2 hrec2
      rcases hl2 : rec2.label with _ | l2
      · rfl
      · rw [Option.some_bind]
        by_cases he2 : l2 = ""
        · subst he2
          simp [hcv]
        · have hcol2 : l2 ∈ columnOf df := label_mem_columnOf hrec2 hl2
          have hiff := labelToCluster_eq_iff_labelConn hlnd hknd hql hcol2 hcol
          have hne : labelToCluster (clusteredRowsOf (workingOf df)
              (qsOf mapping algos t df)) l2 ≠ some cv := by
            intro heq2
            have hconn := hiff.mp (by rw [heq2, hcv])
            exact he2 (labelConn_to_isolated hno hconn rfl)
          simp [hne, he2]
    rw [List.filter_congr hfc]

/-! ## Threshold monotonicity -/

theorem computeSimilarityMatrix_ok_conditions {α : Type} {mapping : α → Option SimFun}
    {algos : List α} {v : ℚ} {column : List String} {qs : List ScoredPair}
    (h : computeSimilarityMatrix mapping algos v column = .ok qs) :
    (algos.map mapping).any Option.isNone = false ∧
    (pairCombinations (dedupKeepFirst column)).isEmpty = false ∧
    ((algos.map mapping).reduceOption).isEmpty = false := by
  unfold computeSimilarityMatrix at h
  dsimp only [] at h
  by_cases h1 : (algos.map mapping).any Option.isNone = true
  · rw [if_pos h1] at h
    exact absurd h (by simp)
  · rw [if_neg h1] at h
    by_cases h2 : (pairCombinations (dedupKeepFirst column)).isEmpty = true
    · rw [if_pos h2] at h
      exact absurd h (by simp)
    · rw [if_neg h2] at h
      by_cases h3 : ((algos.map mapping).reduceOption).isEmpty = true
      · rw [if_pos h3] at h
        exact absurd h (by simp)
      · refine ⟨?_, ?_, ?_⟩
        · revert h1; cases (algos.map mapping).any Option.isNone <;> simp
        · revert h2; cases (pairCombinations (dedupKeepFirst column)).isEmpty <;> simp
        · revert h3; cases ((algos.map mapping).reduceOption).isEmpty <;> simp

theorem computeSimilarityMatrix_ok_any {α : Type} {mapping : α → Option SimFun}
    {algos : List α} {v : ℚ} {column : List String} {qs : List ScoredPair}
    (h : computeSimilarityMatrix mapping algos v column = .ok qs) (u : ℚ) :
    computeSimilarityMatrix mapping algos u column =
      .ok (((pairCombinations (dedupKeepFirst column)).map fun p =>
        ScoredPair.mk p.1 p.2 (simScore (fnsOf mapping algos) p.1 p.2)).filter
          fun sp => u ≤ sp.score) := by
  rcases computeSimilarityMatrix_ok_conditions h with ⟨h1, h2, h3⟩
  unfold computeSimilarityMatrix
  dsimp only []
  rw [h1, h2, h3]
  simp only [Bool.false_eq_true, if_false]
  rfl

theorem qsOf_eq_of_ok {α : Type} {mapping : α → Option SimFun} {algos : List α}
    {t : ℚ} {df : List Record} {qs : List ScoredPair}
    (h : computeSimilarityMatrix mapping algos t (columnOf df) = .ok qs) :
    qsOf mapping algos t df = qs := by
  unfold qsOf
  rw [h]

theorem labelConn_mono {q1 q2 : List ScoredPair} {col : List String}
    (hsub : ∀ sp ∈ q2, sp ∈ q1) {l1 l2 : String}
    (h : LabelConn q2 col l1 l2) : LabelConn q1 col l1 l2 := by
  refine Relation.TransGen.mono ?_ h
  rintro x y (⟨sp, hsp, hor⟩ | hr)
  · exact Or.inl ⟨sp, hsub sp hsp, hor⟩
  · exact Or.inr hr

theorem toFinset_card_le_of_factor (xs : List Record) (f g : Record → Option ℕ)
    (hsome : ∀ r ∈ xs, (g r).isSome = true → (f r).isSome = true)
    (hfact : ∀ r1 ∈ xs, ∀ r2 ∈ xs, f r1 = f r2 → g r1 = g r2) :
    (xs.filterMap g).toFinset.card ≤ (xs.filterMap f).toFinset.card := by
  classical
  apply Finset.card_le_card_of_surjOn
    (fun x : ℕ => if h : ∃ r, r ∈ xs ∧ f r = some x then (g h.choose).getD 0 else 0)
  intro y hy
  simp only [Finset.coe_sort_coe, Finset.mem_coe, List.mem_toFinset,
    List.mem_filterMap] at hy
  rcases hy with ⟨r, hr, hgr⟩
  have hfs : (f r).isSome = true := hsome r hr (by rw [hgr]; rfl)
  rcases Option.isSome_iff_exists.mp hfs with ⟨x, hfx⟩
  refine ⟨x, ?_, ?_⟩
  · simp only [Finset.coe_sort_coe, Finset.mem_coe, List.mem_toFinset,
      List.mem_filterMap]
    exact ⟨r, hr, hfx⟩
  · have hex : ∃ r2, r2 ∈ xs ∧ f r2 = some x := ⟨r, hr, hfx⟩
    simp only [hex, dif_pos]
    have hspec := hex.choose_spec
    have hge : g hex.choose = g r :=
      hfact hex.choose hspec.1 r hr (by rw [hspec.2, hfx])
    rw [hge, hgr]
    rfl

/-- C7: raising the threshold only removes qualifying pairs, and when the
run still succeeds at the higher threshold it also succeeds at the lower
one with at most as many clusters (raising the threshold never merges
clusters). -/
theorem threshold_monotonicity {α : Type} (mapping : α → Option SimFun)
    (algos : List α) (u v : ℚ) (df : List Record)
    (hkeys : (df.map Record.key).Nodup) (huv : u ≤ v) :
    (∀ sp ∈ qsOf mapping algos v df, sp ∈ qsOf mapping algos u df) ∧
    (∀ outv, runPipeline mapping algos v df = .ok outv →
      ∃ outu, runPipeline mapping algos u df = .ok outu ∧
        numClusters outu ≤ numClusters outv) := by
  have hsub : ∀ sp ∈ qsOf mapping algos v df, sp ∈ qsOf mapping algos u df := by
    intro sp hsp
    rcases hcv : computeSimilarityMatrix mapping algos v (columnOf df) with e | qsv
    · have hnil : qsOf mapping algos v df = [] := by
        unfold qsOf
        rw [hcv]
      rw [hnil] at hsp
      simp at hsp
    · have hqv : qsOf mapping algos v df = qsv := qsOf_eq_of_ok hcv
      have hcu := computeSimilarityMatrix_ok_any hcv u
      have hqu := qsOf_eq_of_ok hcu
      rw [hqv] at hsp
      rw [hqu]
      rw [computeSimilarityMatrix_ok_elim hcv] at hsp
      rcases List.mem_filter.mp hsp with ⟨hm, hvle⟩
      refine List.mem_filter.mpr ⟨hm, ?_⟩
      simp only [decide_eq_true_eq] at hvle ⊢
      exact le_trans huv hvle
  refine ⟨hsub, ?_⟩
  intro outv hokv
  rcases runPipeline_ok_elim hokv with ⟨hcreatev, houtv⟩
  rcases create_ok_elim hcreatev with ⟨hcomputev, hqsnev, _⟩
  have hcu := computeSimilarityMatrix_ok_any hcomputev u
  have hqu := qsOf_eq_of_ok hcu
  rw [← hqu] at hcu
  have hqsneu : qsOf mapping algos u df ≠ [] := by
    rcases List.exists_mem_of_ne_nil _ hqsnev with ⟨sp, hsp⟩
    intro hnil
    have := hsub sp hsp
    rw [hnil] at this
    simp at this
  have hcreateu : create_matched_dataframe mapping algos u df =
      .ok (clusteredRowsOf (workingOf df) (qsOf mapping algos u df)) := by
    unfold create_matched_dataframe
    rw [hcu]
    have hne : (qsOf mapping algos u df).isEmpty = false := by
      cases hqk : qsOf mapping algos u df with
      | nil => exact absurd hqk hqsneu
      | cons a l => rfl
    have h2 : (if (qsOf mapping algos u df).isEmpty = true then
        (Except.error noMatchMsg : Except String (List CRow))
        else .ok (clusteredRowsOf (workingOf df) (qsOf mapping algos u df))) =
        .ok (clusteredRowsOf (workingOf df) (qsOf mapping algos u df)) := by
      rw [hne]
      simp
    exact h2
  have hoku : runPipeline mapping algos u df =
      .ok (process_clusters (clusteredRowsOf (workingOf df)
        (qsOf mapping algos u df)) df) := by
    unfold runPipeline
    rw [hcreateu]
    rfl
  refine ⟨_, hoku, ?_⟩
  subst houtv
  unfold numClusters
  rw [process_clusters_eq_map, process_clusters_eq_map,
    List.filterMap_map, List.filterMap_map]
  have hlnd : ((workingOf df).map WRow.label).Nodup := columnOf_nodup df
  have hknd := workingOf_keys_nodup hkeys
  have hqlv : ∀ sp ∈ qsOf mapping algos v df,
      sp.label1 ∈ (workingOf df).map WRow.label ∧
      sp.label2 ∈ (workingOf df).map WRow.label := by
    intro sp hsp
    rcases qs_labels_spec hcomputev sp hsp with ⟨ha, hb, _⟩
    exact ⟨ha, hb⟩
  have hqlu : ∀ sp ∈ qsOf mapping algos u df,
      sp.label1 ∈ (workingOf df).map WRow.label ∧
      sp.label2 ∈ (workingOf df).map WRow.label := by
    intro sp hsp
    rcases qs_labels_spec hcu sp hsp with ⟨ha, hb, _⟩
    exact ⟨ha, hb⟩
  apply toFinset_card_le_of_factor df
    (fun r => r.label.bind fun l =>
      labelToCluster (clusteredRowsOf (workingOf df) (qsOf mapping algos v df)) l)
    (fun r => r.label.bind fun l =>
      labelToCluster (clusteredRowsOf (workingOf df) (qsOf mapping algos u df)) l)
  · intro r hr
    rcases hl : r.label with _ | l
    · intro hg
      simp at hg
    · intro hg
      rw [Option.some_bind]
      exact labelToCluster_isSome _ hlnd (label_mem_columnOf hr hl)
  · intro r1 hr1 r2 hr2 hf
    rcases hl1 : r1.label with _ | l1
    · rcases hl2 : r2.label with _ | l2
      · rfl
      · rw [hl1, hl2] at hf
        simp only [Option.none_bind, Option.some_bind] at hf
        have hs2 := labelToCluster_isSome (qsOf mapping algos v df) hlnd
          (label_mem_columnOf hr2 hl2)
        rw [← hf] at hs2
        simp at hs2
    · rcases hl2 : r2.label with _ | l2
      · rw [hl1, hl2] at hf
        simp only [Option.none_bind, Option.some_bind] at hf
        have hs1 := labelToCluster_isSome (qsOf mapping algos v df) hlnd
          (label_mem_columnOf hr1 hl1)
        rw [hf] at hs1
        simp at hs1
      · rw [hl1, hl2] at hf
        simp only [Option.some_bind] at hf ⊢
        have hm1 : l1 ∈ columnOf df := label_mem_columnOf hr1 hl1
        have hm2 : l2 ∈ columnOf df := label_mem_columnOf hr2 hl2
        have hiffv := labelToCluster_eq_iff_labelConn hlnd hknd hqlv hm1 hm2
        have hiffu := labelToCluster_eq_iff_labelConn hlnd hknd hqlu hm1 hm2
        exact hiffu.mpr (labelConn_mono hsub (hiffv.mp hf))

/-! ## Concrete counterexamples and witnesses -/

/-- C1 counterexample: the pipeline succeeds on an input with a NaN label,
yet the NaN-labelled record is annotated with a null cluster id, and two
empty-labelled records end up sharing a cluster of size 2 rather than each
receiving a singleton cluster. -/
theorem cluster_partition_total_counterexample :
    exceptIsOk (runPipeline (mapOf simConst1) [()] (mkRat 1 2) dfNised) = true ∧
    ((okRows (runPipeline (mapOf simConst1) [()] (mkRat 1 2) dfNised)).getD 0
      oDefault).clusterId = none ∧
    ((okRows (runPipeline (mapOf simNoEmpty) [()] (mkRat 1 2) dfEmpties)).getD 0
      oDefault).clusterSize = some 2 := by
  decide

/-- C1 (amended) witness at a concrete input. -/
theorem cluster_partition_total_amended_witness :
    (okRows (runPipeline (mapOf simConst1) [()] (mkRat 1 2) dfAB)).map ORecord.key =
      dfAB.map Record.key ∧
    (∑ c ∈ ((okRows (runPipeline (mapOf simConst1) [()] (mkRat 1 2)
        dfAB)).filterMap ORecord.clusterId).toFinset,
      ((okRows (runPipeline (mapOf simConst1) [()] (mkRat 1 2)
        dfAB)).filterMap ORecord.clusterId).count c) = dfAB.length := by
  have h := cluster_partition_total_amended (mapOf simConst1) [()] (mkRat 1 2) dfAB
    (okRows (runPipeline (mapOf simConst1) [()] (mkRat 1 2) dfAB))
    (by decide) (by rfl)
  exact ⟨h.1, h.2.2.2⟩

/-- C2 witness: the qualifying pairs of a concrete exhaustive run lie in
the unit interval, with the hypotheses discharged concretely. -/
theorem compute_similarity_matrix_exhaustive_witness :
    (["a", "b"] : List String).Nodup ∧
    ((okPairs (computeSimilarityMatrix (mapOf simConst1) [()] (mkRat 1 2)
      ["a", "b"])).all fun sp =>
        decide (0 ≤ sp.score) && decide (sp.score ≤ 1)) = true := by
  have h := compute_similarity_matrix_exhaustive (mapOf simConst1) [()] (mkRat 1 2)
    ["a", "b"] (by decide) (by decide) (by decide) (fun a ha => rfl)
    (fun f hf x y => by rcases List.mem_singleton.mp hf with rfl; rfl)
    (fun f hf x y => by
      rcases List.mem_singleton.mp hf with rfl
      exact ⟨zero_le_one, le_refl 1⟩)
  rcases h with ⟨qs, hok, _, hbound, _⟩
  refine ⟨by decide, ?_⟩
  have hq : okPairs (computeSimilarityMatrix (mapOf simConst1) [()] (mkRat 1 2)
      ["a", "b"]) = qs := by
    rw [hok]
    rfl
  rw [hq, List.all_eq_true]
  intro sp hsp
  rcases hbound sp hsp with ⟨h1, h2⟩
  simp [h1, h2]

/-- C3 witness: with scores 1 for a-b, 4/5 for b-c and 0 for a-c at
threshold 1/2, the records labelled a and c land in one cluster although
their own score misses the threshold. -/
theorem process_clusters_transitive_closure_witness :
    ((okRows (runPipeline (mapOf simChain) [()] (mkRat 1 2) dfChain)).getD 0
        oDefault).clusterId =
      ((okRows (runPipeline (mapOf simChain) [()] (mkRat 1 2) dfChain)).getD 2
        oDefault).clusterId ∧
    ((okRows (runPipeline (mapOf simChain) [()] (mkRat 1 2) dfChain)).getD 0
        oDefault).clusterId.isSome = true ∧
    simScore (fnsOf (mapOf simChain) [()]) "a" "c" < mkRat 1 2 := by
  have hrun : runPipeline (mapOf simChain) [()] (mkRat 1 2) dfChain =
      .ok (okRows (runPipeline (mapOf simChain) [()] (mkRat 1 2) dfChain)) := by rfl
  have hiff := process_clusters_transitive_closure (mapOf simChain) [()] (mkRat 1 2)
    dfChain (okRows (runPipeline (mapOf simChain) [()] (mkRat 1 2) dfChain))
    (by decide) hrun
    ((okRows (runPipeline (mapOf simChain) [()] (mkRat 1 2) dfChain)).getD 0 oDefault)
    ((okRows (runPipeline (mapOf simChain) [()] (mkRat 1 2) dfChain)).getD 2 oDefault)
    (by decide) (by decide) "a" "c" (by decide) (by decide)
  have h1 : LabelRel (qsOf (mapOf simChain) [()] (mkRat 1 2) dfChain)
      (columnOf dfChain) "a" "b" :=
    Or.inl ⟨⟨"a", "b", 1⟩, by decide, Or.inl ⟨rfl, rfl⟩⟩
  have h2 : LabelRel (qsOf (mapOf simChain) [()] (mkRat 1 2) dfChain)
      (columnOf dfChain) "b" "c" :=
    Or.inl ⟨⟨"b", "c", mkRat 4 5⟩, by decide, Or.inl ⟨rfl, rfl⟩⟩
  have hchain : LabelConn (qsOf (mapOf simChain) [()] (mkRat 1 2) dfChain)
      (columnOf dfChain) "a" "c" :=
    Relation.TransGen.tail (Relation.TransGen.single h1) h2
  rcases hiff.mpr hchain with ⟨heq, hsome⟩
  exact ⟨heq, hsome, by decide⟩

/-- C4 counterexample: an empty-string label occurs in a qualifying pair,
and the empty-labelled record's cluster has size 2 rather than 1. -/
theorem empty_label_counterexample :
    ((qsOf (mapOf simConst1) [()] (mkRat 1 2) dfEmptyPair).any fun sp =>
      sp.label1 = "" || sp.label2 = "") = true ∧
    ((okRows (runPipeline (mapOf simConst1) [()] (mkRat 1 2) dfEmptyPair)).getD 0
      oDefault).clusterSize = some 2 := by
  decide

/-- C4 (amended) witness at a concrete input. -/
theorem empty_label_amended_witness :
    create_matched_dataframe (mapOf simConst1) [()] (mkRat 1 2)
        (dfNised.filter fun r => r.label.isSome) =
      create_matched_dataframe (mapOf simConst1) [()] (mkRat 1 2) dfNised ∧
    ((okRows (runPipeline (mapOf simConst1) [()] (mkRat 1 2) dfNised)).getD 0
      oDefault).clusterId = none := by
  have h := empty_label_amended (mapOf simConst1) [()] (mkRat 1 2) dfNised (by decide)
  refine ⟨h.1, ?_⟩
  have h2 := (h.2 (okRows (runPipeline (mapOf simConst1) [()] (mkRat 1 2) dfNised))
    (by rfl)).1
  exact (h2 _ (by decide) (by decide)).1

/-- C5 counterexample: a threshold outside `[0,1]` is not rejected: with
threshold -1 the similarity computation and the whole pipeline complete
without any error. -/
theorem config_validation_counterexample :
    exceptIsOk (computeSimilarityMatrix (mapOf simConst1) [()] (-1 : ℚ)
      ["a", "b"]) = true ∧
    exceptIsOk (runPipeline (mapOf simConst1) [()] (-1 : ℚ) dfAB) = true := by
  decide

/-- C5 (amended) witness at concrete configurations. -/
theorem config_validation_amended_witness :
    computeSimilarityMatrix mapUnknown [()] (mkRat 1 2) ["a", "b"] =
      .error unknownAlgoMsg ∧
    computeSimilarityMatrix (mapOf simConst1) ([] : List Unit) (mkRat 1 2)
      ["a", "b"] = .error emptyMaxMsg := by
  refine ⟨(config_validation_amended mapUnknown [()] (mkRat 1 2) ["a", "b"]).1
    ⟨(), List.mem_singleton_self (), rfl⟩, ?_⟩
  exact (config_validation_amended (mapOf simConst1) ([] : List Unit) (mkRat 1 2)
    ["a", "b"]).2 rfl (by decide)

/-- C7 witness: at the higher threshold 9/10 only a-b qualifies (two
clusters); at 1/2 the chain merges everything (one cluster). -/
theorem threshold_monotonicity_witness :
    numClusters (okRows (runPipeline (mapOf simChain) [()] (mkRat 1 2) dfChain)) ≤
      numClusters (okRows (runPipeline (mapOf simChain) [()] (mkRat 9 10) dfChain)) ∧
    numClusters (okRows (runPipeline (mapOf simChain) [()] (mkRat 9 10) dfChain)) = 2 ∧
    numClusters (okRows (runPipeline (mapOf simChain) [()] (mkRat 1 2) dfChain)) = 1 := by
  have h := threshold_monotonicity (mapOf simChain) [()] (mkRat 1 2) (mkRat 9 10)
    dfChain (by decide) (by decide)
  rcases h.2 (okRows (runPipeline (mapOf simChain) [()] (mkRat 9 10) dfChain))
    (by rfl) with ⟨outu, hoku, hle⟩
  have houtu : okRows (runPipeline (mapOf simChain) [()] (mkRat 1 2) dfChain) =
      outu := by
    rw [hoku]
    rfl
  refine ⟨?_, by decide, by decide⟩
  rw [houtu]
  exact hle

/-- C8 witness at a concrete input where no pair qualifies. -/
theorem create_matched_dataframe_empty_match_fatal_witness :
    create_matched_dataframe (mapOf simConst0) [()] (mkRat 1 2) dfAB =
      .error noMatchMsg ∧
    2 ≤ (columnOf dfAB).length := by
  refine ⟨create_matched_dataframe_empty_match_fatal (mapOf simConst0) [()]
    (mkRat 1 2) dfAB (fun a ha => rfl) (by decide) (by decide) ?_, by decide⟩
  intro p hp
  have hps : pairCombinations (columnOf dfAB) = [("a", "b")] := by decide
  rw [hps] at hp
  rcases List.mem_singleton.mp hp with rfl
  decide

/-- C9 witness at a column with one distinct label. -/
theorem compute_similarity_matrix_needs_two_labels_witness :
    computeSimilarityMatrix (mapOf simConst1) [()] (mkRat 1 2) ["a", "a"] =
      .error unpackErrMsg ∧
    (["a", "a"] : List String).toFinset.card ≤ 1 :=
  ⟨compute_similarity_matrix_needs_two_labels (mapOf simConst1) [()] (mkRat 1 2)
    ["a", "a"] (fun a ha => rfl) (by decide), by decide⟩

/-! ## Canonical cluster labels -/

/-- A word survives the fold of filters iff it is in the seed list and in
every later list. -/
theorem mem_foldl_filter (w : String) (rest : List (List String)) (s : List String) :
    (w ∈ rest.foldl (fun acc t => acc.filter fun x => x ∈ t) s) ↔
      w ∈ s ∧ ∀ t ∈ rest, w ∈ t := by
  induction rest generalizing s with
  | nil => simp
  | cons t ts ih =>
    simp only [List.foldl_cons, ih, List.mem_filter, decide_eq_true_eq, List.mem_cons]
    constructor
    · rintro ⟨⟨hs, ht⟩, hall⟩
      refine ⟨hs, fun u hu => ?_⟩
      rcases hu with rfl | hu
      · exact ht
      · exact hall u hu
    · rintro ⟨hs, hall⟩
      exact ⟨⟨hs, hall t (Or.inl rfl)⟩, fun u hu => hall u (Or.inr hu)⟩

/-- C6: on a nonempty cluster, `find_common_words_with_order` returns exactly
the words of the first label, kept in their original order and restricted to
those whose lowercase form lies in the intersection of the lowercase word
sets of all members, joined with single spaces; when that intersection is
empty the result is the empty string. -/
theorem canonical_label_common_words (l1 : String) (rest : List String) :
    find_common_words_with_order (l1 :: rest) = canonicalDraftSpec (l1 :: rest) ∧
    (intersectAll (((l1 :: rest).map fun s => strLower s).map pyWords) = [] →
      find_common_words_with_order (l1 :: rest) = "") := by
  have hfilter :
      ((pyWords l1).filter fun w =>
          strLower w ∈ intersectAll (((l1 :: rest).map fun s => strLower s).map pyWords)) =
        (pyWords l1).filter fun w =>
          (l1 :: rest).all fun l => strLower w ∈ pyWords (strLower l) := by
    refine List.filter_congr ?_
    intro w _
    rw [Bool.eq_iff_iff]
    simp only [List.map_cons, List.map_map, intersectAll, decide_eq_true_eq,
      List.all_eq_true, List.mem_cons, mem_foldl_filter, List.mem_map,
      Function.comp]
    constructor
    · rintro ⟨h1, hall⟩ l hl
      rcases hl with rfl | hl
      · exact h1
      · exact hall _ ⟨l, hl, rfl⟩
    · intro hall
      refine ⟨hall l1 (Or.inl rfl), fun u hu => ?_⟩
      rcases hu with ⟨l, hl, rfl⟩
      exact hall l (Or.inr hl)
  constructor
  · simp only [find_common_words_with_order, canonicalDraftSpec, List.headD_cons]
    rw [hfilter]
  · intro hempty
    simp only [find_common_words_with_order, List.headD_cons]
    rw [hempty]
    have hnil : ((pyWords l1).filter fun w => strLower w ∈ ([] : List String)) = [] := by
      simp
    rw [hnil]
    rfl

/-- C6 witness: on the two concrete raw labels the canonical draft is the
ordered common words of the first label; and on two labels sharing no word
the result is the empty string. -/
theorem canonical_label_common_words_witness :
    find_common_words_with_order ["Rotation Benne 10m3", "Rotation Benne 10 m3"] =
      "Rotation Benne" ∧
    find_common_words_with_order ["a", "b"] = "" := by
  have h1 := canonical_label_common_words "Rotation Benne 10m3" ["Rotation Benne 10 m3"]
  have h2 := canonical_label_common_words "a" ["b"]
  refine ⟨?_, h2.2 (by decide)⟩
  rw [h1.1]
  decide

/-! ## Label cleansing -/

/-- Every character surviving `keepAlnumSpace` is alphanumeric, `%` or
whitespace. -/
theorem keepAlnumSpace_mem (l : List Char) :
    ∀ c ∈ keepAlnumSpace l, c.isAlphanum = true ∨ c = '%' ∨ isPySpace c = true := by
  intro c hc
  rcases List.mem_map.mp hc with ⟨a, _, rfl⟩
  split
  · rename_i h
    simp only [Bool.or_eq_true, decide_eq_true_eq] at h
    rcases h with (h | h) | h
    · exact Or.inl h
    · exact Or.inr (Or.inr h)
    · exact Or.inr (Or.inl h)
  · exact Or.inr (Or.inr (by decide))

/-- Every character of a collapsed string is a space or a non-whitespace
character of the input. -/
theorem collapseWsAux_mem (b : Bool) (l : List Char) :
    ∀ c ∈ collapseWsAux b l, c = ' ' ∨ (c ∈ l ∧ isPySpace c = false) := by
  induction l generalizing b with
  | nil => intro c hc; simp [collapseWsAux] at hc
  | cons a rest ih =>
    intro c hc
    simp only [collapseWsAux] at hc
    by_cases ha : isPySpace a = true
    · rw [if_pos ha] at hc
      cases b with
      | true =>
        rcases ih true c hc with h | ⟨h1, h2⟩
        · exact Or.inl h
        · exact Or.inr ⟨List.mem_cons_of_mem a h1, h2⟩
      | false =>
        rcases List.mem_cons.mp hc with rfl | hc
        · exact Or.inl rfl
        · rcases ih true c hc with h | ⟨h1, h2⟩
          · exact Or.inl h
          · exact Or.inr ⟨List.mem_cons_of_mem a h1, h2⟩
    · rw [if_neg ha] at hc
      rcases List.mem_cons.mp hc with rfl | hc
      · exact Or.inr ⟨List.mem_cons_self c rest, Bool.eq_false_iff.mpr ha⟩
      · rcases ih false c hc with h | ⟨h1, h2⟩
        · exact Or.inl h
        · exact Or.inr ⟨List.mem_cons_of_mem a h1, h2⟩

/-- Inside a run, the next emitted character is not whitespace. -/
theorem collapseWsAux_head_true (l : List Char) :
    ∀ c, (collapseWsAux true l).head? = some c → isPySpace c = false := by
  induction l with
  | nil => intro c hc; simp [collapseWsAux] at hc
  | cons a rest ih =>
    intro c hc
    simp only [collapseWsAux] at hc
    by_cases ha : isPySpace a = true
    · rw [if_pos ha] at hc
      exact ih c hc
    · rw [if_neg ha] at hc
      rw [List.head?_cons] at hc
      injection hc with h
      subst h
      exact Bool.eq_false_iff.mpr ha

/-- A collapsed string never has two adjacent spaces. -/
theorem collapseWsAux_chain (b : Bool) (l : List Char) :
    (collapseWsAux b l).Chain' (fun x y => ¬(x = ' ' ∧ y = ' ')) := by
  induction l generalizing b with
  | nil => simp [collapseWsAux]
  | cons a rest ih =>
    simp only [collapseWsAux]
    by_cases ha : isPySpace a = true
    · rw [if_pos ha]
      cases b with
      | true => exact ih true
      | false =>
        show List.Chain' (fun x y => ¬(x = ' ' ∧ y = ' ')) (' ' :: collapseWsAux true rest)
        rw [List.chain'_cons']
        refine ⟨?_, ih true⟩
        intro y hy hcon
        have hys := collapseWsAux_head_true rest y hy
        rw [hcon.2] at hys
        exact absurd hys (by decide)
    · rw [if_neg ha]
      rw [List.chain'_cons']
      refine ⟨?_, ih false⟩
      intro y _ hcon
      rw [hcon.1] at ha
      exact ha (by decide)

/-- The head of a `dropWhile` does not satisfy the dropped predicate. -/
theorem dropWhile_head_not (p : Char → Bool) (l : List Char) :
    ∀ c, (l.dropWhile p).head? = some c → p c = false := by
  induction l with
  | nil => intro c hc; simp [List.dropWhile] at hc
  | cons a rest ih =>
    intro c hc
    rw [List.dropWhile_cons] at hc
    by_cases hp : p a = true
    · rw [if_pos hp] at hc
      exact ih c hc
    · rw [if_neg hp] at hc
      rw [List.head?_cons] at hc
      injection hc with h
      subst h
      exact Bool.eq_false_iff.mpr hp

/-- A stripped list is a prefix of the left-stripped list. -/
theorem pyStrip_prefix_drop (l : List Char) :
    pyStrip l <+: l.dropWhile isPySpace := by
  rw [pyStrip]
  rw [← List.reverse_suffix, List.reverse_reverse]
  exact List.dropWhile_suffix _

/-- A stripped list is an infix of the input. -/
theorem pyStrip_infix_self (l : List Char) : pyStrip l <:+: l :=
  (pyStrip_prefix_drop l).isInfix.trans (List.dropWhile_suffix _).isInfix

/-- The head of a nonempty prefix is the head of the whole list. -/
theorem head?_of_prefix_eq {l m : List Char} (h : l <+: m) (c : Char)
    (hc : l.head? = some c) : m.head? = some c := by
  rcases h with ⟨t, rfl⟩
  cases l with
  | nil => simp at hc
  | cons a l' =>
    rw [List.head?_cons] at hc
    rw [List.cons_append, List.head?_cons]
    exact hc

/-- Stripping removes every leading whitespace character. -/
theorem pyStrip_head (l : List Char) :
    ∀ c, (pyStrip l).head? = some c → isPySpace c = false := by
  intro c hc
  exact dropWhile_head_not isPySpace l c
    (head?_of_prefix_eq (pyStrip_prefix_drop l) c hc)

/-- Stripping removes every trailing whitespace character. -/
theorem pyStrip_getLast (l : List Char) :
    ∀ c, (pyStrip l).getLast? = some c → isPySpace c = false := by
  intro c hc
  rw [pyStrip, List.getLast?_reverse] at hc
  exact dropWhile_head_not isPySpace _ c hc

/-- The cleansing core meets the output contract. -/
theorem cleanseCore_clean (nfd : String → String) (s : String) :
    CleanChars (cleanseCore nfd s) := by
  have hcore : cleanseCore nfd s =
      pyStrip (collapseWs (keepAlnumSpace (digitsToX none false
        (joinNumRuns (removeNumSep none (normalize_text nfd (some s)).data).length
          none (removeNumSep none (normalize_text nfd (some s)).data))))) := rfl
  rw [hcore]
  refine ⟨?_, ?_, ?_, ?_⟩
  · intro c hc
    have hc2 : c ∈ collapseWs (keepAlnumSpace _) :=
      ((pyStrip_infix_self _).sublist.subset) hc
    rcases collapseWsAux_mem false _ c hc2 with h | ⟨h1, h2⟩
    · exact Or.inr (Or.inr h)
    · rcases keepAlnumSpace_mem _ c h1 with h | h | h
      · exact Or.inl h
      · exact Or.inr (Or.inl h)
      · rw [h] at h2; exact absurd h2 (by decide)
  · exact List.Chain'.infix (collapseWsAux_chain false _) (pyStrip_infix_self _)
  · intro c hc hsp
    have := pyStrip_head _ c hc
    rw [hsp] at this
    exact absurd this (by decide)
  · intro c hc hsp
    have := pyStrip_getLast _ c hc
    rw [hsp] at this
    exact absurd this (by decide)

/-- The remainder of the scan after a match is a suffix of the rest of the
input. -/
theorem rest3_suffix (n : ℕ) (rest : List Char) :
    (rest.dropWhile isPySpace).drop n <:+ rest :=
  (List.drop_suffix _ _).trans (List.dropWhile_suffix _)

/-- The substitution scanner maps nonempty inputs to nonempty outputs when
the replacement is nonempty. -/
theorem subXPat_ne_nil (mid repl : List Char) (hreplNe : repl ≠ []) :
    ∀ fuel (prev : Option Char) (l : List Char), l ≠ [] →
      subXPat mid repl fuel prev l ≠ [] := by
  intro fuel prev l hl
  match fuel, l with
  | 0, l => simp only [subXPat]; exact hl
  | fuel + 1, [] => exact absurd rfl hl
  | fuel + 1, c :: rest =>
    simp only [subXPat]
    split
    · split
      · exact fun h => hreplNe (List.append_eq_nil.mp h).1
      · exact List.cons_ne_nil _ _
    · exact List.cons_ne_nil _ _

/-- The head of the scanner output is the input head or the replacement
head. -/
theorem subXPat_head (mid repl : List Char) (hreplNe : repl ≠ []) :
    ∀ fuel (prev : Option Char) (l : List Char) c,
      (subXPat mid repl fuel prev l).head? = some c →
      l.head? = some c ∨ repl.head? = some c := by
  intro fuel prev l c hc
  match fuel, l with
  | 0, l => simp only [subXPat] at hc; exact Or.inl hc
  | fuel + 1, [] => simp only [subXPat] at hc; exact Or.inl hc
  | fuel + 1, a :: rest =>
    simp only [subXPat] at hc
    split at hc
    · split at hc
      · cases repl with
        | nil => exact absurd rfl hreplNe
        | cons r rs =>
          rw [List.cons_append, List.head?_cons] at hc
          exact Or.inr (by rw [List.head?_cons]; exact hc)
      · rw [List.head?_cons] at hc
        exact Or.inl (by rw [List.head?_cons]; exact hc)
    · rw [List.head?_cons] at hc
      exact Or.inl (by rw [List.head?_cons]; exact hc)

/-- Every character of the scanner output is an input character or a
replacement character. -/
theorem subXPat_mem (mid repl : List Char) :
    ∀ fuel (prev : Option Char) (l : List Char) c,
      c ∈ subXPat mid repl fuel prev l → c ∈ l ∨ c ∈ repl := by
  intro fuel
  induction fuel with
  | zero =>
    intro prev l c hc
    simp only [subXPat] at hc
    exact Or.inl hc
  | succ fuel ih =>
    intro prev l c hc
    match l with
    | [] => simp only [subXPat] at hc; exact Or.inl hc
    | a :: rest =>
      simp only [subXPat] at hc
      split at hc
      · split at hc
        · rcases List.mem_append.mp hc with h | h
          · exact Or.inr h
          · rcases ih _ _ c h with h' | h'
            · exact Or.inl (List.mem_cons_of_mem a ((rest3_suffix _ _).sublist.subset h'))
            · exact Or.inr h'
        · rcases List.mem_cons.mp hc with rfl | h
          · exact Or.inl (List.mem_cons_self _ _)
          · rcases ih _ _ c h with h' | h'
            · exact Or.inl (List.mem_cons_of_mem a h')
            · exact Or.inr h'
      · rcases List.mem_cons.mp hc with rfl | h
        · exact Or.inl (List.mem_cons_self _ _)
        · rcases ih _ _ c h with h' | h'
          · exact Or.inl (List.mem_cons_of_mem a h')
          · exact Or.inr h'

/-- A chain of characters none of which is a space never has two adjacent
spaces. -/
theorem chain_of_no_space (l : List Char) (h : ∀ c ∈ l, c ≠ ' ') :
    l.Chain' (fun x y => ¬(x = ' ' ∧ y = ' ')) := by
  induction l with
  | nil => simp
  | cons a rest ih =>
    rw [List.chain'_cons']
    refine ⟨?_, ih fun c hc => h c (List.mem_cons_of_mem a hc)⟩
    intro y _ hcon
    exact h a (List.mem_cons_self a rest) hcon.1

/-- The scanner preserves the no-adjacent-spaces invariant when the
replacement is nonempty and space-free. -/
theorem subXPat_chain (mid repl : List Char)
    (hreplSp : ∀ c ∈ repl, c ≠ ' ') (hreplNe : repl ≠ []) :
    ∀ fuel (prev : Option Char) (l : List Char),
      l.Chain' (fun x y => ¬(x = ' ' ∧ y = ' ')) →
      (subXPat mid repl fuel prev l).Chain' (fun x y => ¬(x = ' ' ∧ y = ' ')) := by
  intro fuel
  induction fuel with
  | zero =>
    intro prev l hl
    simp only [subXPat]
    exact hl
  | succ fuel ih =>
    intro prev l hl
    match l with
    | [] => simp only [subXPat]; exact List.chain'_nil
    | a :: rest =>
      simp only [subXPat]
      split
      · split
        · rw [List.chain'_append]
          refine ⟨chain_of_no_space repl hreplSp, ?_, ?_⟩
          · exact ih _ _ (List.Chain'.suffix hl
              ((rest3_suffix _ _).trans (List.suffix_cons a rest)))
          · intro x hx y _ hcon
            exact hreplSp x (List.mem_of_mem_getLast? hx) hcon.1
        · rw [List.chain'_cons']
          refine ⟨?_, ih _ _ ((List.chain'_cons'.mp hl).2)⟩
          intro y hy hcon
          rcases subXPat_head mid repl hreplNe fuel _ rest y hy with h | h
          · exact (List.chain'_cons'.mp hl).1 y h ⟨hcon.1, hcon.2⟩
          · exact hreplSp y (List.mem_of_mem_head? h) hcon.2
      · rw [List.chain'_cons']
        refine ⟨?_, ih _ _ ((List.chain'_cons'.mp hl).2)⟩
        intro y hy hcon
        rcases subXPat_head mid repl hreplNe fuel _ rest y hy with h | h
        · exact (List.chain'_cons'.mp hl).1 y h ⟨hcon.1, hcon.2⟩
        · exact hreplSp y (List.mem_of_mem_head? h) hcon.2

/-- The scanner never empties its input: a `[]` input stays `[]`. -/
theorem subXPat_nil (mid repl : List Char) :
    ∀ fuel (prev : Option Char), subXPat mid repl fuel prev [] = [] := by
  intro fuel prev
  match fuel with
  | 0 => rfl
  | fuel + 1 => rfl

/-- The scanner preserves a non-space last character when the replacement
is nonempty and space-free. -/
theorem subXPat_getLast (mid repl : List Char)
    (hreplSp : ∀ c ∈ repl, c ≠ ' ') (hreplNe : repl ≠ []) :
    ∀ fuel (prev : Option Char) (l : List Char),
      (∀ c, l.getLast? = some c → c ≠ ' ') →
      ∀ c, (subXPat mid repl fuel prev l).getLast? = some c → c ≠ ' ' := by
  intro fuel
  induction fuel with
  | zero =>
    intro prev l hl c hc
    simp only [subXPat] at hc
    exact hl c hc
  | succ fuel ih =>
    intro prev l hl
    match l with
    | [] => intro c hc; simp only [subXPat] at hc; simp at hc
    | a :: rest =>
      intro c hc
      simp only [subXPat] at hc
      split at hc
      · split at hc
        · by_cases h3 : (rest.dropWhile isPySpace).drop mid.length = []
          · rw [h3, subXPat_nil, List.append_nil] at hc
            exact hreplSp c (List.mem_of_mem_getLast? hc)
          · have hne := subXPat_ne_nil mid repl hreplNe fuel (some (mid.getLastD 'X')) _ h3
            rw [List.getLast?_append_of_ne_nil _ hne] at hc
            refine ih _ _ ?_ c hc
            intro d hd
            rcases rest3_suffix mid.length rest with ⟨t, ht⟩
            refine hl d ?_
            rw [← ht]
            rw [show a :: (t ++ (rest.dropWhile isPySpace).drop mid.length) =
              (a :: t) ++ (rest.dropWhile isPySpace).drop mid.length from rfl]
            rw [List.getLast?_append_of_ne_nil _ h3]
            exact hd
        · by_cases hr : rest = []
          · subst hr
            rw [subXPat_nil] at hc
            exact hl c hc
          · have hne := subXPat_ne_nil mid repl hreplNe fuel (some a) _ hr
            rw [show a :: subXPat mid repl fuel (some a) rest =
              [a] ++ subXPat mid repl fuel (some a) rest from rfl] at hc
            rw [List.getLast?_append_of_ne_nil _ hne] at hc
            refine ih _ _ ?_ c hc
            intro d hd
            refine hl d ?_
            rw [show a :: rest = [a] ++ rest from rfl]
            rw [List.getLast?_append_of_ne_nil _ hr]
            exact hd
      · by_cases hr : rest = []
        · subst hr
          rw [subXPat_nil] at hc
          exact hl c hc
        · have hne := subXPat_ne_nil mid repl hreplNe fuel (some a) _ hr
          rw [show a :: subXPat mid repl fuel (some a) rest =
            [a] ++ subXPat mid repl fuel (some a) rest from rfl] at hc
          rw [List.getLast?_append_of_ne_nil _ hne] at hc
          refine ih _ _ ?_ c hc
          intro d hd
          refine hl d ?_
          rw [show a :: rest = [a] ++ rest from rfl]
          rw [List.getLast?_append_of_ne_nil _ hr]
          exact hd

/-- The scanner preserves the full output contract when the replacement is
nonempty and purely alphanumeric. -/
theorem subXPat_cleanChars (mid repl : List Char)
    (hreplA : ∀ c ∈ repl, c.isAlphanum = true) (hreplNe : repl ≠ [])
    (fuel : ℕ) (l : List Char) (h : CleanChars l) :
    CleanChars (subXPat mid repl fuel none l) := by
  have hreplSp : ∀ c ∈ repl, c ≠ ' ' := by
    intro c hc hsp
    have := hreplA c hc
    rw [hsp] at this
    exact absurd this (by decide)
  obtain ⟨hmem, hchain, hhead, hlast⟩ := h
  refine ⟨?_, ?_, ?_, ?_⟩
  · intro c hc
    rcases subXPat_mem mid repl fuel none l c hc with h' | h'
    · exact hmem c h'
    · exact Or.inl (hreplA c h')
  · exact subXPat_chain mid repl hreplSp hreplNe fuel none l hchain
  · intro c hc
    rcases subXPat_head mid repl hreplNe fuel none l c hc with h' | h'
    · exact hhead c h'
    · exact hreplSp c (List.mem_of_mem_head? h')
  · exact subXPat_getLast mid repl hreplSp hreplNe fuel none l hlast

/-- C10: `process_label_ccap` and `process_label_clear` return the empty
string on a null or empty input, and every output consists only of ASCII
alphanumeric characters, `%` and spaces, with no leading or trailing
whitespace and no two consecutive spaces. -/
theorem cleansed_label_contract (nfd : String → String) (label : Option String) :
    (label = none ∨ label = some "" →
      process_label_ccap nfd label = "" ∧ process_label_clear nfd label = "") ∧
    CleanString (process_label_ccap nfd label) ∧
    CleanString (process_label_clear nfd label) := by
  have hempty : CleanChars ([] : List Char) := ⟨by simp, by simp, by simp, by simp⟩
  rcases label with _ | s
  · exact ⟨fun _ => ⟨rfl, rfl⟩, hempty, hempty⟩
  · by_cases hs : s = ""
    · subst hs
      exact ⟨fun _ => ⟨rfl, rfl⟩, hempty, hempty⟩
    · refine ⟨?_, ?_, ?_⟩
      · rintro (h | h)
        · exact absurd h (by simp)
        · injection h with h'
          exact absurd h' hs
      · simp only [process_label_ccap, if_neg hs]
        exact cleanseCore_clean nfd s
      · simp only [process_label_clear, if_neg hs]
        refine subXPat_cleanChars _ _ (by decide) (by decide) _ _ ?_
        exact subXPat_cleanChars _ _ (by decide) (by decide) _ _ (cleanseCore_clean nfd s)

/-- C10 witness: the contract at concrete inputs, with a concrete cleansed
output. -/
theorem cleansed_label_contract_witness :
    process_label_ccap (fun s => s) (some "") = "" ∧
    CleanString (process_label_clear (fun s => s) (some " Benne   12,5 m3 !!")) ∧
    process_label_clear (fun s => s) (some " Benne   12,5 m3 !!") = "Benne xmx" := by
  refine ⟨((cleansed_label_contract (fun s => s) (some "")).1 (Or.inr rfl)).1,
    (cleansed_label_contract (fun s => s) (some " Benne   12,5 m3 !!")).2.2, ?_⟩
  decide

end Og
